import Mathlib

/-!
# Verification of the vocabulary / sampling subsystem of NN-Python

This file gives a shallow embedding of `src/nlp/CorpusUtils.py` and proves
(or refutes) the specified properties of:

* `build_vocab` (token counting, min-count filtering, the `*UNK*` merge,
  the token↔index maps),
* `_precalc_downsampling`,
* `_make_table` and `PhraseSampler._make_table` (cumulative sweep tables),
* `_create_binary_tree` (Huffman tree construction and the HSM code matrices),
* `fast_pair_sample`, `fast_seq_sample`, `PhraseSampler.sample_pairs`,
  `PhraseSampler.sample_ngrams`, and `NegSampler.sample`.

Modelling conventions:

* Python raises (IndexError, KeyError, ValueError, AttributeError,
  ZeroDivisionError) are modelled by `Option`-valued functions returning
  `none`.
* The pre-drawn pool of random integers (`rand_pool` with cursor `ri`) is
  modelled as an explicit `List ℕ` that is consumed front to back; reading
  past its end is `none` (IndexError in the source).
* Floating-point quantities that the claims speak about exactly are modelled
  over `ℚ` (table sweep thresholds) or `ℝ` (`np.sqrt` in downsampling).
* Python dict iteration order is implementation defined for the purposes of
  the claims; `List.dedup` stands in for the deduplicated key order.
  No claim below depends on the particular enumeration order.
-/

/-! ## Section 1: build_vocab (src/nlp/CorpusUtils.py lines 71-186) -/

/-- The unknown-token marker `'*UNK*'` used throughout `build_vocab`. -/
def UNK : String := "*UNK*"

/-- The raw token occurrences seen during the single scan of the corpus, in
order.  `build_vocab` increments `total_words` once per element of this list
(lines 81-90). -/
def rawOccurrences (corpus : List (List String)) : List String := corpus.flatten

/-- `raw_vocab[word].count` after the scan: the number of occurrences of
`word` in the corpus (lines 85-90). -/
def rawCount (corpus : List (List String)) (w : String) : ℕ :=
  (rawOccurrences corpus).count w

/-- The distinct raw token types (the keys of `raw_vocab`). -/
def rawTypes (corpus : List (List String)) : List String :=
  (rawOccurrences corpus).dedup

/-- The retention test of the index-assignment loop (line 109):
`(v.count >= min_count) or (word == '*UNK*')`. -/
def keepWord (corpus : List (List String)) (minCount : ℕ) (w : String) : Prop :=
  minCount ≤ rawCount corpus w ∨ w = UNK

instance (corpus : List (List String)) (minCount : ℕ) (w : String) :
    Decidable (keepWord corpus minCount w) := by
  unfold keepWord; infer_instance

/-- The tokens of the final vocabulary, in index order: the raw types that
pass `keepWord` (lines 108-115), followed by `*UNK*` appended at the last
index when it never occurred as a raw token (lines 122-126). -/
def keptTokens (corpus : List (List String)) (minCount : ℕ) : List String :=
  if UNK ∈ rawTypes corpus then
    (rawTypes corpus).filter (fun w => decide (keepWord corpus minCount w))
  else
    (rawTypes corpus).filter (fun w => decide (keepWord corpus minCount w)) ++ [UNK]

/-- `unk_count`: the summed counts of all dropped words (lines 116-118). -/
def unkCount (corpus : List (List String)) (minCount : ℕ) : ℕ :=
  (((rawTypes corpus).filter
      (fun w => decide (¬ keepWord corpus minCount w))).map (rawCount corpus)).sum

/-- The `count` field of a final vocabulary entry: the raw count, with the
dropped mass folded into `*UNK*` (lines 119-126; when `*UNK*` was not a raw
token its raw count is 0, so the same formula covers both branches). -/
def finalCount (corpus : List (List String)) (minCount : ℕ) (w : String) : ℕ :=
  if w = UNK then rawCount corpus UNK + unkCount corpus minCount
  else rawCount corpus w

/-- `words_to_keys`: a retained token's LUT key is its position in the
index-assignment order (lines 111-115). -/
def wordsToKeys (corpus : List (List String)) (minCount : ℕ) (w : String) : ℕ :=
  (keptTokens corpus minCount).indexOf w

/-- `keys_to_words`: the token standing at a LUT key (lines 111-115). -/
def keysToWords (corpus : List (List String)) (minCount : ℕ) (k : ℕ) : String :=
  (keptTokens corpus minCount).getD k ""

/-! ## Theorems for Section 1 -/

/-- Summing the raw counts over any duplicate-free list that contains every
token of `l` gives back the length of `l`. -/
theorem sum_count_over_nodup (l : List String) (u : List String) (hu : u.Nodup)
    (hmem : ∀ w, w ∈ l → w ∈ u) : (u.map (fun w => l.count w)).sum = l.length := by
  induction u generalizing l with
  | nil =>
    cases l with
    | nil => simp
    | cons a l => exact absurd (hmem a (by simp)) (by simp)
  | cons a u ih =>
    have hcount : (u.map (fun w => l.count w)).sum
        = (u.map (fun w => (l.filter (fun x => decide (x ≠ a))).count w)).sum := by
      apply congrArg
      apply List.map_congr_left
      intro w hw
      have hwa : w ≠ a := by
        rintro rfl
        exact (List.nodup_cons.mp hu).1 hw
      exact (List.count_filter (by simpa using hwa)).symm
    have hsplit : l.length
        = l.count a + (l.filter (fun x => decide (x ≠ a))).length := by
      clear hcount ih hmem hu
      induction l with
      | nil => simp
      | cons x l ihl =>
        simp only [ne_eq, decide_not] at ihl
        by_cases hx : x = a
        · subst hx
          simp [List.count_cons, List.filter_cons]
          omega
        · simp [List.count_cons, List.filter_cons, hx]
          omega
    rw [List.map_cons, List.sum_cons, hcount, hsplit,
      ih (l.filter (fun x => decide (x ≠ a))) (List.nodup_cons.mp hu).2 ?_]
    intro w hw
    have hwl : w ∈ l := List.mem_of_mem_filter hw
    have hwa : w ≠ a := by
      have := List.of_mem_filter hw
      simpa using this
    have := hmem w hwl
    simp at this
    tauto

/-- C2: conservation of mass through the unknown-token merge.  For a
non-empty corpus and any `min_count`, the final vocabulary counts (the
retained raw counts, with every dropped token's count folded into `*UNK*`)
sum to the total number of raw token occurrences seen during the scan. -/
theorem build_vocab_mass_conservation
    (corpus : List (List String)) (minCount : ℕ) (hne : corpus ≠ []) :
    ((keptTokens corpus minCount).map (finalCount corpus minCount)).sum
      = (rawOccurrences corpus).length := by
  clear hne
  classical
  have hnodup : (rawTypes corpus).Nodup := (rawOccurrences corpus).nodup_dedup
  have hmem : ∀ w, w ∈ rawOccurrences corpus → w ∈ rawTypes corpus := by
    intro w hw; exact (List.mem_dedup).mpr hw
  have htotal : ((rawTypes corpus).map (rawCount corpus)).sum
      = (rawOccurrences corpus).length :=
    sum_count_over_nodup (rawOccurrences corpus) (rawTypes corpus) hnodup hmem
  -- split the raw types into kept and dropped
  have hsplit : ((rawTypes corpus).map (rawCount corpus)).sum
      = (((rawTypes corpus).filter
            (fun w => decide (keepWord corpus minCount w))).map (rawCount corpus)).sum
        + unkCount corpus minCount := by
    unfold unkCount
    rw [← List.sum_append, ← List.map_append]
    have hperm : List.Perm
        ((rawTypes corpus).filter (fun w => decide (keepWord corpus minCount w))
          ++ (rawTypes corpus).filter (fun w => decide (¬ keepWord corpus minCount w)))
        (rawTypes corpus) := by
      have h1 := List.filter_append_perm
        (fun w => decide (keepWord corpus minCount w)) (rawTypes corpus)
      have h2 : ∀ w : String,
          (decide (¬ keepWord corpus minCount w))
            = ! (decide (keepWord corpus minCount w)) := by
        intro w; by_cases h : keepWord corpus minCount w <;> simp [h]
      rw [List.filter_congr (fun w _ => h2 w)]
      exact h1
    exact ((hperm.map (rawCount corpus)).sum_eq).symm
  set kept := (rawTypes corpus).filter (fun w => decide (keepWord corpus minCount w))
    with hkept
  have hkeptsum : (kept.map (finalCount corpus minCount)).sum
      = (kept.map (rawCount corpus)).sum
        + (if UNK ∈ rawTypes corpus then unkCount corpus minCount else 0) := by
    by_cases hunk : UNK ∈ rawTypes corpus
    · -- UNK is among the raw types, hence appears exactly once in kept
      have hunkkept : UNK ∈ kept := by
        rw [hkept, List.mem_filter]
        exact ⟨hunk, by simp [keepWord]⟩
      have hknodup : kept.Nodup := hnodup.filter _
      obtain ⟨s, t, hst⟩ := List.append_of_mem hunkkept
      have hnotin : UNK ∉ s ∧ UNK ∉ t := by
        have hkn := hknodup
        rw [hst] at hkn
        have h := List.nodup_append.mp hkn
        exact ⟨fun hs => h.2.2 hs (by simp), fun ht => (List.nodup_cons.mp h.2.1).1 ht⟩
      have hmap : ∀ u : List String, UNK ∉ u →
          (u.map (finalCount corpus minCount)).sum = (u.map (rawCount corpus)).sum := by
        intro u hu
        apply congrArg
        apply List.map_congr_left
        intro w hw
        have hwne : w ≠ UNK := fun h => hu (h ▸ hw)
        simp [finalCount, hwne]
      rw [hst]
      simp only [List.map_append, List.map_cons, List.sum_append, List.sum_cons]
      rw [hmap s hnotin.1, hmap t hnotin.2]
      simp only [finalCount, eq_self_iff_true, if_true, if_pos hunk]
      omega
    · -- UNK is not a raw type, hence not in kept either
      have hunkkept : UNK ∉ kept := by
        rw [hkept, List.mem_filter]
        rintro ⟨h, -⟩
        exact hunk h
      simp only [if_neg hunk, Nat.add_zero]
      apply congrArg
      apply List.map_congr_left
      intro w hw
      have hwne : w ≠ UNK := fun h => hunkkept (h ▸ hw)
      simp [finalCount, hwne]
  unfold keptTokens
  by_cases hunk : UNK ∈ rawTypes corpus
  · rw [if_pos hunk, ← hkept, hkeptsum, if_pos hunk, ← htotal, hsplit]
  · rw [if_neg hunk]
    have hrcunk : rawCount corpus UNK = 0 := by
      unfold rawCount
      rw [List.count_eq_zero]
      intro h
      exact hunk ((List.mem_dedup).mpr h)
    rw [List.map_append, List.sum_append, ← hkept, hkeptsum, if_neg hunk]
    simp only [List.map_cons, List.map_nil, List.sum_cons, List.sum_nil]
    simp only [finalCount, eq_self_iff_true, if_true, hrcunk]
    rw [← htotal, hsplit]
    omega

/-- Closed witness for `build_vocab_mass_conservation` at a concrete
two-sentence corpus with `min_count = 2`. -/
theorem build_vocab_mass_conservation_witness :
    (([["a", "b", "a"], ["c", "a", "b"]] : List (List String)) ≠ []) ∧
    ((keptTokens [["a", "b", "a"], ["c", "a", "b"]] 2).map
        (finalCount [["a", "b", "a"], ["c", "a", "b"]] 2)).sum
      = (rawOccurrences [["a", "b", "a"], ["c", "a", "b"]]).length :=
  ⟨by decide, build_vocab_mass_conservation [["a", "b", "a"], ["c", "a", "b"]] 2
    (by decide)⟩

/-- The final vocabulary token list never contains duplicates. -/
theorem keptTokens_nodup (corpus : List (List String)) (minCount : ℕ) :
    (keptTokens corpus minCount).Nodup := by
  unfold keptTokens
  have hnodup : (rawTypes corpus).Nodup := (rawOccurrences corpus).nodup_dedup
  by_cases hunk : UNK ∈ rawTypes corpus
  · simpa [if_pos hunk] using hnodup.filter _
  · rw [if_neg hunk]
    refine List.Nodup.append (hnodup.filter _) (by simp) ?_
    intro w hw
    simp only [List.mem_singleton]
    rintro rfl
    exact hunk (List.mem_of_mem_filter hw)

/-- C9: the token→index and index→token maps of `build_vocab` are mutual
inverses on the final vocabulary, and the assigned indices form the dense
range `[0, |vocabulary|)`. -/
theorem build_vocab_maps_inverse (corpus : List (List String)) (minCount : ℕ) :
    (∀ w ∈ keptTokens corpus minCount,
        wordsToKeys corpus minCount w < (keptTokens corpus minCount).length ∧
        keysToWords corpus minCount (wordsToKeys corpus minCount w) = w) ∧
    (∀ k < (keptTokens corpus minCount).length,
        keysToWords corpus minCount k ∈ keptTokens corpus minCount ∧
        wordsToKeys corpus minCount (keysToWords corpus minCount k) = k) := by
  classical
  have hnodup := keptTokens_nodup corpus minCount
  constructor
  · intro w hw
    have hlt : (keptTokens corpus minCount).indexOf w
        < (keptTokens corpus minCount).length := List.indexOf_lt_length.mpr hw
    refine ⟨hlt, ?_⟩
    unfold keysToWords wordsToKeys
    rw [List.getD_eq_getElem _ _ hlt]
    exact List.getElem_indexOf hlt
  · intro k hk
    have hget : keysToWords corpus minCount k = (keptTokens corpus minCount)[k] := by
      unfold keysToWords
      exact List.getD_eq_getElem _ _ hk
    constructor
    · rw [hget]; exact List.getElem_mem hk
    · unfold wordsToKeys
      rw [hget]
      exact List.indexOf_getElem hnodup k hk

/-- Closed witness for `build_vocab_maps_inverse`: on a concrete corpus the
round trip through both maps is the identity and the keys are dense. -/
theorem build_vocab_maps_inverse_witness :
    keysToWords [["a", "b", "a"]] 2 (wordsToKeys [["a", "b", "a"]] 2 "a") = "a" ∧
    wordsToKeys [["a", "b", "a"]] 2 (keysToWords [["a", "b", "a"]] 2 0) = 0 := by
  have h := build_vocab_maps_inverse [["a", "b", "a"]] 2
  exact ⟨(h.1 "a" (by decide)).2, (h.2 0 (by decide)).2⟩

/-! ## Section 2: _precalc_downsampling (src/nlp/CorpusUtils.py lines 188-202) -/

/-- The per-token retention probability computed by the loop body of
`_precalc_downsampling` (lines 195-201): `sample = (down_sample > 1e-8)`;
`prob = np.sqrt(down_sample / (v.count / total_words))` when sampling, else
`1.0`; stored as `min(prob, 1.0)`.  Python float arithmetic is modelled over
`ℝ` with true division. -/
noncomputable def samplProbOf (downSample : ℝ) (count totalWords : ℕ) : ℝ :=
  if downSample > 1 / 100000000 then
    min (Real.sqrt (downSample / ((count : ℝ) / (totalWords : ℝ)))) 1
  else min 1 1

/-- `_precalc_downsampling` over a vocabulary given as (word, count) pairs:
computes `total_words` as the summed counts (line 196) and attaches each
entry's retention probability. -/
noncomputable def precalcDownsampling (w2v : List (String × ℕ)) (downSample : ℝ) :
    List (String × ℕ × ℝ) :=
  w2v.map fun wv => (wv.1, wv.2, samplProbOf downSample wv.2 ((w2v.map Prod.snd).sum))

/-- C5 counterexample: the claim says every `down_sample > 0` uses the
square-root formula, but the code only samples when `down_sample > 1e-8`.
At `down_sample = 1e-9` (with a one-token vocabulary of count 1) the code
stores probability 1 while the claimed formula gives `sqrt(1e-9) < 1`. -/
theorem downsampling_threshold_counterexample :
    precalcDownsampling [("the", 1)] (1 / 1000000000) = [("the", 1, 1)] ∧
    min (Real.sqrt ((1 / 1000000000 : ℝ) / (((1 : ℕ) : ℝ) / ((1 : ℕ) : ℝ)))) 1 ≠ 1 := by
  constructor
  · have hcond : ¬ ((1 / 1000000000 : ℝ) > 1 / 100000000) := by norm_num
    unfold precalcDownsampling samplProbOf
    rw [List.map_cons, List.map_nil]
    rw [if_neg hcond]
    simp
  · have h1 : Real.sqrt ((1 / 1000000000 : ℝ) / (((1 : ℕ) : ℝ) / ((1 : ℕ) : ℝ))) < 1 := by
      rw [Real.sqrt_lt' one_pos]
      norm_num
    rw [min_eq_left h1.le]
    exact ne_of_lt h1

/-- C5 (amended): for every vocabulary, each token's stored `sample_prob`
equals `min(1, sqrt(down_sample / (count / total_count)))` whenever
`down_sample > 1e-8` (not: `> 0`), and equals 1 whenever
`down_sample ≤ 1e-8` — in particular for `down_sample = 0` and for the whole
interval `(0, 1e-8]`. -/
theorem downsampling_formula (w2v : List (String × ℕ)) (downSample : ℝ)
    (e : String × ℕ × ℝ) (he : e ∈ precalcDownsampling w2v downSample) :
    (downSample > 1 / 100000000 →
      e.2.2 = min (Real.sqrt (downSample /
        ((e.2.1 : ℝ) / (((w2v.map Prod.snd).sum : ℕ) : ℝ)))) 1) ∧
    (downSample ≤ 1 / 100000000 → e.2.2 = 1) := by
  simp only [precalcDownsampling, List.mem_map] at he
  obtain ⟨wv, hwv, rfl⟩ := he
  constructor
  · intro hgt
    dsimp only
    unfold samplProbOf
    rw [if_pos hgt]
  · intro hle
    have hcond : ¬ (downSample > 1 / 100000000) := not_lt.mpr hle
    dsimp only
    unfold samplProbOf
    rw [if_neg hcond]
    exact min_self 1

/-- Closed witness for `downsampling_formula` at a concrete vocabulary with
`down_sample = 0`. -/
theorem downsampling_formula_witness :
    (("a", 2, (1 : ℝ)) ∈ precalcDownsampling [("a", 2)] 0) ∧
    (("a", 2, (1 : ℝ)).2.2 = 1) := by
  have hmem : ("a", 2, (1 : ℝ)) ∈ precalcDownsampling [("a", 2)] 0 := by
    have hcond : ¬ ((0 : ℝ) > 1 / 100000000) := by norm_num
    unfold precalcDownsampling samplProbOf
    rw [List.map_cons, List.map_nil]
    rw [if_neg hcond]
    simp
  exact ⟨hmem, (downsampling_formula [("a", 2)] 0 _ hmem).2 (by norm_num)⟩

/-! ## Section 3: _make_table (lines 204-228) and PhraseSampler._make_table
(lines 367-385) -/

/-- One iteration of the table-filling sweep (lines 221-227 resp. 378-384)
at table position `tidx`.  The state holds the cursor `widx`, the running
threshold `d1`, and the table built so far (reversed).  `shares` is the list
of normalized per-index increments (`count**power / power_sum` resp.
`phrase_lens[i] / len_sum`, floating point in the source, exact `ℚ` here);
the lookup `shares[widx + 1]?` models `w2v[k2w[widx]]` / `phrase_lens[widx]`
immediately after `widx += 1`, which happens BEFORE the clamp of the
following line, so an out-of-range cursor raises (models the
KeyError/IndexError) rather than being clamped. -/
def tableStep (shares : List ℚ) (tableSize : ℕ) (st : ℕ × ℚ × List ℕ) (tidx : ℕ) :
    Option (ℕ × ℚ × List ℕ) :=
  let acc := st.1 :: st.2.2
  if (tidx : ℚ) / (tableSize : ℚ) > st.2.1 then
    match shares[st.1 + 1]? with
    | none => none
    | some s =>
      let widx := st.1 + 1
      let widx := if shares.length ≤ widx then shares.length - 1 else widx
      some (widx, st.2.1 + s, acc)
  else
    let widx := if shares.length ≤ st.1 then shares.length - 1 else st.1
    some (widx, st.2.1, acc)

/-- `_make_table`'s sweep (lines 218-228): `d1` starts as the share of index
0 (raising if the vocabulary is empty), then the whole table is filled by
`tableStep`. -/
def makeTable (shares : List ℚ) (tableSize : ℕ) : Option (List ℕ) := do
  let d0 ← shares[0]?
  let st ← (List.range tableSize).foldlM (tableStep shares tableSize) (0, d0, [])
  pure st.2.2.reverse

/-- `PhraseSampler._make_table` (lines 367-385): shares are phrase lengths
normalized by their sum. -/
def phraseMakeTable (pList : List (List ℕ)) (tableSize : ℕ) : Option (List ℕ) :=
  let lens : List ℚ := pList.map (fun p => (p.length : ℚ))
  makeTable (lens.map (fun x => x / lens.sum)) tableSize

/-- The sweep's loop invariant: the cursor is in range, `d1` is the prefix
sum of the shares up to and including the cursor, and all table entries so
far are valid indices. -/
def SweepInv (shares : List ℚ) (st : ℕ × ℚ × List ℕ) : Prop :=
  st.1 < shares.length ∧ st.2.1 = (shares.take (st.1 + 1)).sum ∧
    ∀ e ∈ st.2.2, e < shares.length

/-- `tableStep` preserves the sweep invariant and cannot fail, provided the
shares sum to 1 (exact arithmetic) and the position is inside the table. -/
theorem tableStep_preserves (shares : List ℚ) (tableSize : ℕ)
    (hsum : shares.sum = 1) (st : ℕ × ℚ × List ℕ) (tidx : ℕ)
    (htidx : tidx < tableSize) (hinv : SweepInv shares st) :
    ∃ st', tableStep shares tableSize st tidx = some st' ∧ SweepInv shares st' ∧
      st'.2.2.length = st.2.2.length + 1 := by
  obtain ⟨hw, hd, hacc⟩ := hinv
  have hT : (0 : ℚ) < (tableSize : ℚ) := by
    have : 0 < tableSize := lt_of_le_of_lt (Nat.zero_le _) htidx
    exact_mod_cast this
  have hfrac : (tidx : ℚ) / (tableSize : ℚ) < 1 := by
    rw [div_lt_one hT]
    exact_mod_cast htidx
  unfold tableStep
  by_cases hcond : (tidx : ℚ) / (tableSize : ℚ) > st.2.1
  · -- advancing branch: the cursor cannot be at the last index
    have hwlt : st.1 + 1 < shares.length := by
      rcases Nat.lt_or_ge (st.1 + 1) shares.length with h | h
      · exact h
      · exfalso
        have hlast : st.1 + 1 = shares.length := le_antisymm hw h
        have : st.2.1 = shares.sum := by
          rw [hd, hlast, List.take_length]
        rw [this, hsum] at hcond
        exact absurd hcond (not_lt.mpr hfrac.le)
    have hget : shares[st.1 + 1]? = some shares[st.1 + 1] :=
      List.getElem?_eq_getElem hwlt
    rw [if_pos hcond, hget]
    have hnoclamp : ¬ (shares.length ≤ st.1 + 1) := not_le.mpr hwlt
    simp only [if_neg hnoclamp]
    refine ⟨_, rfl, ⟨hwlt, ?_, ?_⟩, by simp⟩
    · rw [hd, List.sum_take_succ _ _ hwlt]
    · intro e he
      rcases List.mem_cons.mp he with rfl | he
      · exact hw
      · exact hacc e he
  · rw [if_neg hcond]
    have hnoclamp : ¬ (shares.length ≤ st.1) := not_le.mpr hw
    simp only [if_neg hnoclamp]
    refine ⟨_, rfl, ⟨hw, hd, ?_⟩, by simp⟩
    intro e he
    rcases List.mem_cons.mp he with rfl | he
    · exact hw
    · exact hacc e he

/-- Folding the sweep over a list of in-range positions keeps the invariant
and succeeds with one table entry per position. -/
theorem sweep_fold (shares : List ℚ) (tableSize : ℕ) (hsum : shares.sum = 1)
    (ts : List ℕ) (hts : ∀ t ∈ ts, t < tableSize) :
    ∀ st, SweepInv shares st →
      ∃ st', ts.foldlM (tableStep shares tableSize) st = some st' ∧
        SweepInv shares st' ∧ st'.2.2.length = st.2.2.length + ts.length := by
  induction ts with
  | nil => intro st hst; exact ⟨st, rfl, hst, by simp⟩
  | cons t ts ih =>
    intro st hst
    obtain ⟨st1, hstep, hinv1, hlen1⟩ :=
      tableStep_preserves shares tableSize hsum st t (hts t (by simp)) hst
    obtain ⟨st', hfold, hinv', hlen'⟩ := ih (fun u hu => hts u (by simp [hu])) st1 hinv1
    refine ⟨st', ?_, hinv', by rw [hlen', hlen1, List.length_cons]; omega⟩
    rw [List.foldlM_cons, hstep]
    exact hfold

/-- C6 (amended): when the share increments sum to exactly 1 — which is what
the normalized `count^power / power_sum` (resp. `phrase_lens / len_sum`)
values satisfy in exact arithmetic — the sweep of `_make_table` and of
`PhraseSampler._make_table` completes for every input with at least one
entry, and every table entry is a valid index in `[0, vocabulary size)`
(resp. `[0, phrase count)`).  The cursor provably never leaves the valid
range, so the clamp statement after the share lookup never fires. -/
theorem make_table_entries_in_range :
    (∀ (shares : List ℚ) (tableSize : ℕ), shares ≠ [] → shares.sum = 1 →
      ∃ tbl, makeTable shares tableSize = some tbl ∧ tbl.length = tableSize ∧
        ∀ e ∈ tbl, e < shares.length) ∧
    (∀ (pList : List (List ℕ)) (tableSize : ℕ), pList ≠ [] →
      0 < (pList.map (fun p => (p.length : ℚ))).sum →
      ∃ tbl, phraseMakeTable pList tableSize = some tbl ∧ tbl.length = tableSize ∧
        ∀ e ∈ tbl, e < pList.length) := by
  have main : ∀ (shares : List ℚ) (tableSize : ℕ), shares ≠ [] → shares.sum = 1 →
      ∃ tbl, makeTable shares tableSize = some tbl ∧ tbl.length = tableSize ∧
        ∀ e ∈ tbl, e < shares.length := by
    intro shares tableSize hne hsum
    have hlen : 0 < shares.length := List.length_pos.mpr hne
    have hget : shares[0]? = some shares[0] := List.getElem?_eq_getElem hlen
    have hinv0 : SweepInv shares (0, shares[0], []) := by
      refine ⟨hlen, ?_, by simp⟩
      rw [List.sum_take_succ shares 0 hlen]
      simp
    obtain ⟨st', hfold, hinv, hlenacc⟩ := sweep_fold shares tableSize hsum
      (List.range tableSize) (fun t ht => List.mem_range.mp ht)
      (0, shares[0], []) hinv0
    refine ⟨st'.2.2.reverse, ?_, ?_, ?_⟩
    · unfold makeTable
      rw [hget]
      show ((List.range tableSize).foldlM (tableStep shares tableSize)
        (0, shares[0], [])).bind _ = _
      rw [hfold]
      rfl
    · simp only [List.length_reverse]
      simpa using hlenacc
    · intro e he
      exact hinv.2.2 e (List.mem_reverse.mp he)
  refine ⟨main, ?_⟩
  intro pList tableSize hne hpos
  have hS : (pList.map (fun p => (p.length : ℚ))).sum ≠ 0 := ne_of_gt hpos
  have hsum : ((pList.map (fun p => (p.length : ℚ))).map
      (fun x => x / (pList.map (fun p => (p.length : ℚ))).sum)).sum = 1 := by
    simp only [div_eq_mul_inv]
    rw [List.sum_map_mul_right, List.map_id']
    exact mul_inv_cancel₀ hS
  have hne' : (pList.map (fun p => (p.length : ℚ))).map
      (fun x => x / (pList.map (fun p => (p.length : ℚ))).sum) ≠ [] := by
    simp [hne]
  obtain ⟨tbl, htbl, hlen, hmem⟩ := main _ tableSize hne' hsum
  refine ⟨tbl, htbl, hlen, ?_⟩
  intro e he
  have := hmem e he
  simpa using this

/-- C6 counterexample: the claim says the clamp prevents any out-of-range
lookup whenever drift pushes the cursor out of bounds, for every input with
at least one entry.  But the share lookup at the incremented cursor happens
BEFORE the clamp: with a (drifted) share list summing to 1/2 and table size
4, the sweep reads past the end of the share list and the build fails
instead of clamping. -/
theorem make_table_drift_counterexample : makeTable [(1 : ℚ)/2] 4 = none := by
  have h4 : List.range 4 = [0, 1, 2, 3] := by rfl
  norm_num [makeTable, h4, tableStep, List.foldlM_cons, List.foldlM_nil]

/-- Closed witness for `make_table_entries_in_range` at concrete inputs. -/
theorem make_table_entries_in_range_witness :
    (∃ tbl, makeTable [(1 : ℚ)] 3 = some tbl ∧ tbl.length = 3 ∧
      ∀ e ∈ tbl, e < 1) ∧
    (∃ tbl, phraseMakeTable [[5, 6]] 3 = some tbl ∧ tbl.length = 3 ∧
      ∀ e ∈ tbl, e < 1) := by
  constructor
  · exact make_table_entries_in_range.1 [(1 : ℚ)] 3 (by decide) (by norm_num)
  · have h := make_table_entries_in_range.2 [[5, 6]] 3 (by decide) (by norm_num)
    simpa using h

/-! ## Section 4: fast_pair_sample (lines 305-327) and fast_seq_sample
(lines 329-350) -/

/-- The context resampling loop of `fast_pair_sample` (lines 321-324):
`c_idx` starts equal to `a_idx` and is redrawn as `c_min + rand % c_span`
until it differs from the anchor, consuming one pool entry per attempt. -/
def resampleContext (aIdx cMin cSpan : ℕ) : List ℕ → Option (ℕ × List ℕ)
  | [] => none
  | r :: rest =>
    if cMin + r % cSpan = aIdx then resampleContext aIdx cMin cSpan rest
    else some (cMin + r % cSpan, rest)

/-- One iteration of `fast_pair_sample`'s loop body (lines 308-326).  Two
pool entries give the anchor position and the reduced window; `c_min` uses
truncated ℕ subtraction, which is exactly the `if (c_min < 0): c_min = 0`
clamp of lines 314-316; `c_max` is clipped to the last phrase position
(lines 317-319).  Returns the anchor/context positions, the keys written
into `anc_keys[j]`/`pos_keys[j]`, and the remaining pool. -/
def pairSampleOne (phrase : List ℕ) (maxWindow : ℕ) (pool : List ℕ) :
    Option ((ℕ × ℕ) × (ℕ × ℕ) × List ℕ) :=
  match pool with
  | r1 :: r2 :: rest =>
    let aIdx := r1 % phrase.length
    let redWin := r2 % maxWindow + 1
    let cMin := aIdx - redWin
    let cMax := min (aIdx + redWin) (phrase.length - 1)
    let cSpan := cMax - cMin + 1
    match resampleContext aIdx cMin cSpan rest with
    | none => none
    | some (cIdx, rest') =>
      match phrase[aIdx]?, phrase[cIdx]? with
      | some ak, some ck => some ((aIdx, cIdx), (ak, ck), rest')
      | _, _ => none
  | _ => none

/-- `fast_pair_sample` (lines 305-327): the `repeats` loop, threading the
shared pool cursor through the iterations. -/
def fastPairSample (phrase : List ℕ) (maxWindow : ℕ) (repeats : ℕ)
    (pool : List ℕ) : Option (List ((ℕ × ℕ) × ℕ × ℕ) × List ℕ) :=
  match repeats with
  | 0 => some ([], pool)
  | n + 1 =>
    match pairSampleOne phrase maxWindow pool with
    | none => none
    | some (ps, ks, rest) =>
      match fastPairSample phrase maxWindow n rest with
      | none => none
      | some (results, rest') => some ((ps, ks) :: results, rest')

/-- The row-filling `while` loop of `fast_seq_sample` (lines 341-349):
position `cur_pos` onwards, `n` entries still to fill; an entry is `pad_key`
exactly when `start_idx + cur_pos` is negative, otherwise the phrase key at
that effective index (an out-of-range read would be an IndexError). -/
def seqRowFrom (phrase : List ℕ) (padKey : ℕ) (startIdx : ℤ) (curPos : ℕ) :
    ℕ → Option (List ℕ)
  | 0 => some []
  | n + 1 =>
    match (if startIdx + curPos < 0 then some padKey
        else phrase[(startIdx + curPos).toNat]?),
      seqRowFrom phrase padKey startIdx (curPos + 1) n with
    | some e, some rest => some (e :: rest)
    | _, _ => none

/-- One iteration of `fast_seq_sample`'s loop body (lines 333-349): draw the
stopping position `stop_idx ∈ [1, phrase_len − 1]`, set
`start_idx = stop_idx − gram_n + 1` (may be negative), fill the `gram_n`
positions.  Returns the row, the drawn `stop_idx`, and the remaining
pool. -/
def seqSampleOne (phrase : List ℕ) (gramN : ℕ) (padKey : ℕ) (pool : List ℕ) :
    Option ((List ℕ × ℕ) × List ℕ) :=
  match pool with
  | [] => none
  | r :: rest =>
    let stopIdx := r % (phrase.length - 1) + 1
    match seqRowFrom phrase padKey ((stopIdx : ℤ) - gramN + 1) 0 gramN with
    | none => none
    | some row => some ((row, stopIdx), rest)

/-- `fast_seq_sample` (lines 329-350): the `repeats` loop. -/
def fastSeqSample (phrase : List ℕ) (gramN : ℕ) (padKey : ℕ) (repeats : ℕ)
    (pool : List ℕ) : Option (List (List ℕ × ℕ) × List ℕ) :=
  match repeats with
  | 0 => some ([], pool)
  | n + 1 =>
    match seqSampleOne phrase gramN padKey pool with
    | none => none
    | some (rs, rest) =>
      match fastSeqSample phrase gramN padKey n rest with
      | none => none
      | some (results, rest') => some (rs :: results, rest')

/-- The resampling loop only ever returns a value in
`[c_min, c_min + c_span − 1]` that differs from the anchor. -/
theorem resampleContext_spec (aIdx cMin cSpan : ℕ) (hspan : 0 < cSpan)
    (pool : List ℕ) (c : ℕ) (rest : List ℕ)
    (h : resampleContext aIdx cMin cSpan pool = some (c, rest)) :
    cMin ≤ c ∧ c ≤ cMin + cSpan - 1 ∧ c ≠ aIdx := by
  induction pool with
  | nil => exact absurd h (by simp [resampleContext])
  | cons r pool ih =>
    unfold resampleContext at h
    by_cases hc : cMin + r % cSpan = aIdx
    · rw [if_pos hc] at h
      exact ih h
    · rw [if_neg hc] at h
      obtain ⟨rfl, -⟩ : cMin + r % cSpan = c ∧ pool = rest := by
        simpa using h
      have hmod : r % cSpan ≤ cSpan - 1 := by
        have := Nat.mod_lt r hspan
        omega
      exact ⟨Nat.le_add_right _ _, by omega, hc⟩

/-- Single-draw version of the C7 property: the anchor and context positions
are in the phrase, the context lies in the clipped window
`[a_idx − radius, a_idx + radius]` for some radius in `[1, max_window]`, the
context differs from the anchor, and the emitted keys are the phrase keys at
those positions. -/
theorem pairSampleOne_spec (phrase : List ℕ) (maxWindow : ℕ) (pool : List ℕ)
    (hlen : 2 ≤ phrase.length) (hw : 1 ≤ maxWindow)
    (ps : ℕ × ℕ) (ks : ℕ × ℕ) (rest : List ℕ)
    (h : pairSampleOne phrase maxWindow pool = some (ps, ks, rest)) :
    ps.1 < phrase.length ∧ ps.2 < phrase.length ∧ ps.2 ≠ ps.1 ∧
      (∃ radius, 1 ≤ radius ∧ radius ≤ maxWindow ∧
        ps.1 - radius ≤ ps.2 ∧ ps.2 ≤ ps.1 + radius) ∧
      phrase[ps.1]? = some ks.1 ∧ phrase[ps.2]? = some ks.2 := by
  match pool with
  | [] => exact absurd h (by simp [pairSampleOne])
  | [r1] => exact absurd h (by simp [pairSampleOne])
  | r1 :: r2 :: pool =>
    unfold pairSampleOne at h
    dsimp only at h
    set aIdx := r1 % phrase.length with haIdx
    set redWin := r2 % maxWindow + 1 with hredWin
    set cMin := aIdx - redWin with hcMin
    set cMax := min (aIdx + redWin) (phrase.length - 1) with hcMax
    set cSpan := cMax - cMin + 1 with hcSpan
    have hphr : 0 < phrase.length := by omega
    have ha : aIdx < phrase.length := Nat.mod_lt r1 hphr
    have hamax : aIdx ≤ cMax := by
      have h1 : aIdx ≤ phrase.length - 1 := by omega
      have h2 : aIdx ≤ aIdx + redWin := Nat.le_add_right _ _
      omega
    have hcm : cMin ≤ aIdx := Nat.sub_le _ _
    have hspan : 0 < cSpan := by omega
    match hres : resampleContext aIdx cMin cSpan pool with
    | none => rw [hres] at h; exact absurd h (by simp)
    | some (cIdx, rest') =>
      rw [hres] at h
      dsimp only at h
      obtain ⟨hge, hle, hne⟩ :=
        resampleContext_spec aIdx cMin cSpan hspan pool cIdx rest' hres
      have hcIdx : cIdx ≤ cMax := by omega
      have hclen : cIdx < phrase.length := by omega
      have hgetA : phrase[aIdx]? = some phrase[aIdx] := List.getElem?_eq_getElem ha
      have hgetC : phrase[cIdx]? = some phrase[cIdx] := List.getElem?_eq_getElem hclen
      rw [hgetA, hgetC] at h
      dsimp only at h
      have heq : ((aIdx, cIdx), (phrase[aIdx], phrase[cIdx]), rest')
          = (ps, ks, rest) := Option.some.inj h
      have hps : ps = (aIdx, cIdx) := (congrArg Prod.fst heq).symm
      have hks : ks = (phrase[aIdx], phrase[cIdx]) :=
        (congrArg (fun x => x.2.1) heq).symm
      subst hps; subst hks
      refine ⟨ha, hclen, hne, ⟨redWin, by omega, ?_, by omega, by omega⟩,
        hgetA, hgetC⟩
      have := Nat.mod_lt r2 (by omega : 0 < maxWindow)
      omega

/-- C7: every (anchor, context) pair produced by `fast_pair_sample` on a
phrase of length at least 2 with `max_window ≥ 1` has both positions inside
the phrase, the context inside the window `[anchor − radius, anchor + radius]`
(clipped to the phrase) for some drawn radius in `[1, max_window]`, and the
context position different from the anchor position; consequently, on a
phrase of distinct keys, every returned context key differs from its paired
anchor key. -/
theorem fast_pair_sample_spec (phrase : List ℕ) (maxWindow repeats : ℕ)
    (pool : List ℕ) (hlen : 2 ≤ phrase.length) (hw : 1 ≤ maxWindow)
    (results : List ((ℕ × ℕ) × ℕ × ℕ)) (rest : List ℕ)
    (h : fastPairSample phrase maxWindow repeats pool = some (results, rest)) :
    ∀ pr ∈ results,
      pr.1.1 < phrase.length ∧ pr.1.2 < phrase.length ∧ pr.1.2 ≠ pr.1.1 ∧
      (∃ radius, 1 ≤ radius ∧ radius ≤ maxWindow ∧
        pr.1.1 - radius ≤ pr.1.2 ∧ pr.1.2 ≤ pr.1.1 + radius) ∧
      phrase[pr.1.1]? = some pr.2.1 ∧ phrase[pr.1.2]? = some pr.2.2 ∧
      (phrase.Nodup → pr.2.2 ≠ pr.2.1) := by
  induction repeats generalizing pool results with
  | zero =>
    have hz : ([] : List ((ℕ × ℕ) × ℕ × ℕ)) = results ∧ pool = rest := by
      simpa [fastPairSample] using h
    obtain ⟨rfl, -⟩ := hz
    intro pr hpr
    exact absurd hpr (by simp)
  | succ n ih =>
    unfold fastPairSample at h
    match hone : pairSampleOne phrase maxWindow pool with
    | none => rw [hone] at h; exact absurd h (by simp)
    | some (ps, ks, rest1) =>
      rw [hone] at h
      dsimp only at h
      match hrec : fastPairSample phrase maxWindow n rest1 with
      | none => rw [hrec] at h; exact absurd h (by simp)
      | some (results1, rest2) =>
        rw [hrec] at h
        dsimp only at h
        have hc : (ps, ks) :: results1 = results ∧ rest2 = rest := by
          simpa using h
        obtain ⟨rfl, hr2⟩ := hc
        rw [hr2] at hrec
        intro pr hpr
        rcases List.mem_cons.mp hpr with rfl | hpr
        · obtain ⟨h1, h2, h3, h4, h5, h6⟩ :=
            pairSampleOne_spec phrase maxWindow pool hlen hw ps ks rest1 hone
          refine ⟨h1, h2, h3, h4, h5, h6, ?_⟩
          intro hnd heq
          have hA : phrase[(ps, ks).1.1] = (ps, ks).2.1 := by
            rw [List.getElem?_eq_getElem h1] at h5
            exact Option.some.inj h5
          have hC : phrase[(ps, ks).1.2] = (ps, ks).2.2 := by
            rw [List.getElem?_eq_getElem h2] at h6
            exact Option.some.inj h6
          apply h3
          have hgg : phrase[(ps, ks).1.2] = phrase[(ps, ks).1.1] := by
            rw [hA, hC, heq]
          exact (List.Nodup.getElem_inj_iff hnd).mp hgg
        · exact ih rest1 results1 hrec pr hpr

/-- Closed witness for `fast_pair_sample_spec` on the phrase `[10, 20]` with
`max_window = 1` and a concrete pool. -/
theorem fast_pair_sample_spec_witness :
    fastPairSample [10, 20] 1 1 [0, 0, 1] = some ([((0, 1), 10, 20)], []) ∧
    (((0, 1), (10, 20)) : (ℕ × ℕ) × ℕ × ℕ).1.2 ≠ ((0, 1), (10, 20)).1.1 := by
  have heval : fastPairSample [10, 20] 1 1 [0, 0, 1]
      = some ([((0, 1), 10, 20)], []) := by decide
  refine ⟨heval, ?_⟩
  have h := fast_pair_sample_spec [10, 20] 1 1 [0, 0, 1] (by decide) (by decide)
    [((0, 1), 10, 20)] [] heval ((0, 1), 10, 20) (by simp)
  exact h.2.2.1

/-- Specification of the row-filling loop: the produced row has exactly the
requested length, holds `pad_key` exactly at the positions whose effective
index is negative, and the phrase key at the effective index otherwise. -/
theorem seqRowFrom_spec (phrase : List ℕ) (padKey : ℕ) (startIdx : ℤ)
    (n : ℕ) : ∀ (curPos : ℕ) (row : List ℕ),
    seqRowFrom phrase padKey startIdx curPos n = some row →
    row.length = n ∧ ∀ j, j < n →
      (startIdx + (curPos + j : ℕ) < 0 → row[j]? = some padKey) ∧
      (0 ≤ startIdx + (curPos + j : ℕ) →
        row[j]? = phrase[(startIdx + (curPos + j : ℕ)).toNat]?) := by
  induction n with
  | zero =>
    intro curPos row h
    obtain rfl : row = [] := by simpa [seqRowFrom] using h.symm
    exact ⟨rfl, fun j hj => absurd hj (by omega)⟩
  | succ n ih =>
    intro curPos row h
    unfold seqRowFrom at h
    by_cases hneg : startIdx + curPos < 0
    · rw [if_pos hneg] at h
      match hrec : seqRowFrom phrase padKey startIdx (curPos + 1) n with
      | none => rw [hrec] at h; exact absurd h (by simp)
      | some rest =>
        rw [hrec] at h
        dsimp only at h
        obtain rfl : padKey :: rest = row := Option.some.inj h
        obtain ⟨hlen, hsp⟩ := ih (curPos + 1) rest hrec
        refine ⟨by simp [hlen], ?_⟩
        intro j hj
        match j with
        | 0 =>
          refine ⟨fun _ => by simp, fun hpos => absurd hpos ?_⟩
          simpa using hneg
        | j + 1 =>
          have := hsp j (by omega)
          have harith : startIdx + ((curPos + 1 : ℕ) + j : ℕ)
              = startIdx + ((curPos + (j + 1) : ℕ) : ℤ) := by
            push_cast
            ring
          rw [harith] at this
          simpa using this
    · rw [if_neg hneg] at h
      match hget : phrase[(startIdx + curPos).toNat]? with
      | none => rw [hget] at h; exact absurd h (by simp)
      | some e =>
        rw [hget] at h
        match hrec : seqRowFrom phrase padKey startIdx (curPos + 1) n with
        | none => rw [hrec] at h; exact absurd h (by simp)
        | some rest =>
          rw [hrec] at h
          dsimp only at h
          obtain rfl : e :: rest = row := Option.some.inj h
          obtain ⟨hlen, hsp⟩ := ih (curPos + 1) rest hrec
          refine ⟨by simp [hlen], ?_⟩
          intro j hj
          match j with
          | 0 =>
            refine ⟨fun hneg' => absurd hneg' ?_, fun _ => ?_⟩
            · simpa using hneg
            · simpa using hget.symm
          | j + 1 =>
            have := hsp j (by omega)
            have harith : startIdx + ((curPos + 1 : ℕ) + j : ℕ)
                = startIdx + ((curPos + (j + 1) : ℕ) : ℤ) := by
              push_cast
              ring
            rw [harith] at this
            simpa using this

/-- C8: every row produced by `fast_seq_sample` on a phrase of length ≥ 2
comes from a stop position drawn in `[1, phrase_len − 1]` inclusive; with
`start = stop − gram_n + 1` the row has exactly `gram_n` entries, holds
`pad_key` exactly at the positions whose effective index `start + position`
is negative, and the phrase key at the effective index otherwise (so for a
phrase of length 3 with `gram_n = 5` the first `gram_n − 1 − stop ≥ 2`
entries are `pad_key` and the last `stop + 1` entries are real phrase
keys). -/
theorem fast_seq_sample_spec (phrase : List ℕ) (gramN padKey repeats : ℕ)
    (pool : List ℕ) (hlen : 2 ≤ phrase.length)
    (results : List (List ℕ × ℕ)) (rest : List ℕ)
    (h : fastSeqSample phrase gramN padKey repeats pool = some (results, rest)) :
    ∀ rs ∈ results,
      1 ≤ rs.2 ∧ rs.2 ≤ phrase.length - 1 ∧ rs.1.length = gramN ∧
      ∀ pos, pos < gramN →
        ((rs.2 : ℤ) - gramN + 1 + pos < 0 → rs.1[pos]? = some padKey) ∧
        (0 ≤ (rs.2 : ℤ) - gramN + 1 + pos →
          rs.1[pos]? = phrase[((rs.2 : ℤ) - gramN + 1 + pos).toNat]?) := by
  induction repeats generalizing pool results with
  | zero =>
    have hz : ([] : List (List ℕ × ℕ)) = results ∧ pool = rest := by
      simpa [fastSeqSample] using h
    obtain ⟨rfl, -⟩ := hz
    intro rs hrs
    exact absurd hrs (by simp)
  | succ n ih =>
    unfold fastSeqSample at h
    match hone : seqSampleOne phrase gramN padKey pool with
    | none => rw [hone] at h; exact absurd h (by simp)
    | some (rs1, rest1) =>
      rw [hone] at h
      dsimp only at h
      match hrec : fastSeqSample phrase gramN padKey n rest1 with
      | none => rw [hrec] at h; exact absurd h (by simp)
      | some (results1, rest2) =>
        rw [hrec] at h
        dsimp only at h
        have hc : rs1 :: results1 = results ∧ rest2 = rest := by
          simpa using h
        obtain ⟨rfl, hr2⟩ := hc
        rw [hr2] at hrec
        intro rs hrs
        rcases List.mem_cons.mp hrs with rfl | hrs
        · -- the freshly drawn sample
          match pool, hone with
          | r :: pool', hone =>
            unfold seqSampleOne at hone
            dsimp only at hone
            match hrow : seqRowFrom phrase padKey
                ((((r % (phrase.length - 1) + 1) : ℕ) : ℤ) - gramN + 1) 0 gramN with
            | none => rw [hrow] at hone; exact absurd hone (by simp)
            | some row =>
              rw [hrow] at hone
              dsimp only at hone
              have heq : ((row, r % (phrase.length - 1) + 1), pool')
                  = (rs, rest1) := Option.some.inj hone
              have hrs1 : rs = (row, r % (phrase.length - 1) + 1) :=
                (congrArg Prod.fst heq).symm
              subst hrs1
              obtain ⟨hrl, hrsp⟩ := seqRowFrom_spec phrase padKey _ gramN 0 row hrow
              have hstop : r % (phrase.length - 1) < phrase.length - 1 :=
                Nat.mod_lt r (by omega)
              refine ⟨by simp, by simpa using hstop, hrl, ?_⟩
              intro pos hpos
              have := hrsp pos hpos
              have harith : (((r % (phrase.length - 1) + 1 : ℕ) : ℤ) - gramN + 1
                    + ((0 + pos : ℕ) : ℤ))
                  = ((r % (phrase.length - 1) + 1 : ℕ) : ℤ) - gramN + 1 + pos := by
                push_cast
                ring
              rw [harith] at this
              exact this
        · exact ih rest1 results1 hrec rs hrs

/-- Closed witness for `fast_seq_sample_spec`: a phrase of length 3 with
`gram_n = 5`, `pad_key = 0`; the drawn stop is 1, so the first three entries
are padding and the last two are real phrase keys. -/
theorem fast_seq_sample_spec_witness :
    fastSeqSample [7, 8, 9] 5 0 1 [0] = some ([([0, 0, 0, 7, 8], 1)], []) ∧
    ([0, 0, 0, 7, 8] : List ℕ)[0]? = some 0 ∧
    ([0, 0, 0, 7, 8] : List ℕ)[1]? = some 0 := by
  have heval : fastSeqSample [7, 8, 9] 5 0 1 [0]
      = some ([([0, 0, 0, 7, 8], 1)], []) := by decide
  have h := fast_seq_sample_spec [7, 8, 9] 5 0 1 [0] (by decide)
    [([0, 0, 0, 7, 8], 1)] [] heval ([0, 0, 0, 7, 8], 1) (by simp)
  exact ⟨heval, (h.2.2.2 0 (by omega)).1 (by norm_num),
    (h.2.2.2 1 (by omega)).1 (by norm_num)⟩

/-! ## Section 5: PhraseSampler.sample_pairs (lines 387-410) and
PhraseSampler.sample_ngrams (lines 412-434) -/

/-- The shrinking `repeats` computation (lines 398-400 and 423-425): start
at 5 and decrement until it divides `sample_count` (1 always does). -/
def computeRepeats (sampleCount : ℕ) : ℕ :=
  if sampleCount % 5 = 0 then 5
  else if sampleCount % 4 = 0 then 4
  else if sampleCount % 3 = 0 then 3
  else if sampleCount % 2 = 0 then 2
  else 1

/-- The grouped sampling loop of `sample_pairs` (lines 401-406), with `g`
groups left: one pool entry selects a phrase-table slot, its phrase index is
broadcast into `phrase_keys[i:(i+repeats)]`, and `fast_pair_sample` fills
the anchor/positive keys for the group.  Returns the three key lists and the
remaining pool. -/
def samplePairsGroups (pList : List (List ℕ)) (maxWindow : ℕ)
    (ptable : List ℕ) (repeats : ℕ) :
    ℕ → List ℕ → Option (List ℕ × List ℕ × List ℕ × List ℕ)
  | 0, pool => some ([], [], [], pool)
  | g + 1, pool =>
    match pool with
    | [] => none
    | ptIdx :: pool1 =>
      match ptable[ptIdx]? with
      | none => none
      | some pk =>
        match pList[pk]? with
        | none => none
        | some phrase =>
          match fastPairSample phrase maxWindow repeats pool1 with
          | none => none
          | some (results, pool2) =>
            match samplePairsGroups pList maxWindow ptable repeats g pool2 with
            | none => none
            | some (ancs, poss, pks, rest) =>
              some (results.map (fun pr => pr.2.1) ++ ancs,
                    results.map (fun pr => pr.2.2) ++ poss,
                    List.replicate repeats pk ++ pks, rest)

/-- `PhraseSampler.sample_pairs` (lines 387-410), with the constructor state
inlined: the phrase table is built by `PhraseSampler._make_table` (line 362)
and `self.max_phrase_key = min(len(phrase_list), max_phrase_key)` (line
363).  The final line clamps the phrase keys with
`np.minimum(self.max_phrase_key, phrase_keys)` (line 409). -/
def samplePairs (pList : List (List ℕ)) (maxWindow mpkCtor tableSize : ℕ)
    (sampleCount : ℕ) (pool : List ℕ) : Option (List ℕ × List ℕ × List ℕ) :=
  match phraseMakeTable pList tableSize with
  | none => none
  | some ptable =>
    match samplePairsGroups pList maxWindow ptable (computeRepeats sampleCount)
        (sampleCount / computeRepeats sampleCount) pool with
    | none => none
    | some (ancs, poss, pks, _) =>
      some (ancs, poss, pks.map (fun k => min (min pList.length mpkCtor) k))

/-- The grouped sampling loop of `sample_ngrams` (lines 426-431). -/
def sampleNgramsGroups (pList : List (List ℕ)) (gramN padKey : ℕ)
    (ptable : List ℕ) (repeats : ℕ) :
    ℕ → List ℕ → Option (List (List ℕ) × List ℕ × List ℕ)
  | 0, pool => some ([], [], pool)
  | g + 1, pool =>
    match pool with
    | [] => none
    | ptIdx :: pool1 =>
      match ptable[ptIdx]? with
      | none => none
      | some pk =>
        match pList[pk]? with
        | none => none
        | some phrase =>
          match fastSeqSample phrase gramN padKey repeats pool1 with
          | none => none
          | some (results, pool2) =>
            match sampleNgramsGroups pList gramN padKey ptable repeats g pool2 with
            | none => none
            | some (rows, pks, rest) =>
              some (results.map (fun rs => rs.1) ++ rows,
                    List.replicate repeats pk ++ pks, rest)

/-- `PhraseSampler.sample_ngrams` (lines 412-434), constructor state
inlined, with the same `np.minimum(self.max_phrase_key, phrase_keys)` clamp
(line 433). -/
def sampleNgrams (pList : List (List ℕ)) (gramN padKey mpkCtor tableSize : ℕ)
    (sampleCount : ℕ) (pool : List ℕ) : Option (List (List ℕ) × List ℕ) :=
  match phraseMakeTable pList tableSize with
  | none => none
  | some ptable =>
    match sampleNgramsGroups pList gramN padKey ptable
        (computeRepeats sampleCount) (sampleCount / computeRepeats sampleCount)
        pool with
    | none => none
    | some (rows, pks, _) =>
      some (rows, pks.map (fun k => min (min pList.length mpkCtor) k))

/-- C4 counterexample: with three phrases and constructor argument
`max_phrase_key = 2`, a draw that selects the third phrase returns phrase
key `2 = min(len(phrase_list), max_phrase_key)`, which exceeds
`max_phrase_key − 1 = 1`: the keys are capped at
`min(len(phrase_list), max_phrase_key)`, not at `max_phrase_key − 1`. -/
theorem sample_pairs_phrase_key_counterexample :
    samplePairs [[1, 2], [3, 4], [5, 6, 7, 8, 9, 10, 11, 12]] 2 2 6 1 [4, 0, 0, 1]
      = some ([5], [6], [2]) ∧ ¬ ((2 : ℕ) ≤ 2 - 1) := by
  constructor
  · have htable : phraseMakeTable [[1, 2], [3, 4], [5, 6, 7, 8, 9, 10, 11, 12]] 6
        = some [0, 0, 0, 1, 2, 2] := by
      have h6 : List.range 6 = [0, 1, 2, 3, 4, 5] := by rfl
      norm_num [phraseMakeTable, makeTable, h6, tableStep, List.foldlM_cons,
        List.foldlM_nil]
    unfold samplePairs
    rw [htable]
    decide
  · decide

/-- C4 (amended): every phrase key returned by `sample_pairs` or
`sample_ngrams` is at most `min(len(phrase_list), max_phrase_key)` — the
value stored as `self.max_phrase_key` by the constructor — where
`max_phrase_key` is the constructor argument. -/
theorem sample_phrase_keys_capped :
    (∀ (pList : List (List ℕ)) (maxWindow mpkCtor tableSize sampleCount : ℕ)
      (pool ancs poss pks : List ℕ),
      samplePairs pList maxWindow mpkCtor tableSize sampleCount pool
        = some (ancs, poss, pks) →
      ∀ k ∈ pks, k ≤ min pList.length mpkCtor) ∧
    (∀ (pList : List (List ℕ)) (gramN padKey mpkCtor tableSize sampleCount : ℕ)
      (pool : List ℕ) (rows : List (List ℕ)) (pks : List ℕ),
      sampleNgrams pList gramN padKey mpkCtor tableSize sampleCount pool
        = some (rows, pks) →
      ∀ k ∈ pks, k ≤ min pList.length mpkCtor) := by
  constructor
  · intro pList maxWindow mpkCtor tableSize sampleCount pool ancs poss pks h k hk
    unfold samplePairs at h
    match htable : phraseMakeTable pList tableSize with
    | none => rw [htable] at h; exact absurd h (by simp)
    | some ptable =>
      rw [htable] at h
      dsimp only at h
      match hgo : samplePairsGroups pList maxWindow ptable
          (computeRepeats sampleCount) (sampleCount / computeRepeats sampleCount)
          pool with
      | none => rw [hgo] at h; exact absurd h (by simp)
      | some (ancs1, poss1, pks1, rest1) =>
        rw [hgo] at h
        dsimp only at h
        have heq := Option.some.inj h
        have hpks : pks = pks1.map (fun k => min (min pList.length mpkCtor) k) :=
          (congrArg (fun x => x.2.2) heq).symm
        subst hpks
        obtain ⟨k', -, rfl⟩ := List.mem_map.mp hk
        exact min_le_left _ _
  · intro pList gramN padKey mpkCtor tableSize sampleCount pool rows pks h k hk
    unfold sampleNgrams at h
    match htable : phraseMakeTable pList tableSize with
    | none => rw [htable] at h; exact absurd h (by simp)
    | some ptable =>
      rw [htable] at h
      dsimp only at h
      match hgo : sampleNgramsGroups pList gramN padKey ptable
          (computeRepeats sampleCount) (sampleCount / computeRepeats sampleCount)
          pool with
      | none => rw [hgo] at h; exact absurd h (by simp)
      | some (rows1, pks1, rest1) =>
        rw [hgo] at h
        dsimp only at h
        have heq := Option.some.inj h
        have hpks : pks = pks1.map (fun k => min (min pList.length mpkCtor) k) :=
          (congrArg (fun x => x.2) heq).symm
        subst hpks
        obtain ⟨k', -, rfl⟩ := List.mem_map.mp hk
        exact min_le_left _ _

/-- Closed witness for `sample_phrase_keys_capped`, applying both halves at
concrete sampler runs. -/
theorem sample_phrase_keys_capped_witness :
    (∀ k ∈ ([2] : List ℕ), k ≤ min 3 2) ∧ (∀ k ∈ ([0] : List ℕ), k ≤ min 1 5) := by
  have htable3 : phraseMakeTable [[1, 2], [3, 4], [5, 6, 7, 8, 9, 10, 11, 12]] 6
      = some [0, 0, 0, 1, 2, 2] := by
    have h6 : List.range 6 = [0, 1, 2, 3, 4, 5] := by rfl
    norm_num [phraseMakeTable, makeTable, h6, tableStep, List.foldlM_cons,
      List.foldlM_nil]
  have heval1 : samplePairs [[1, 2], [3, 4], [5, 6, 7, 8, 9, 10, 11, 12]] 2 2 6 1
      [4, 0, 0, 1] = some ([5], [6], [2]) := by
    unfold samplePairs
    rw [htable3]
    decide
  have htable1 : phraseMakeTable [[1, 2]] 2 = some [0, 0] := by
    have h2 : List.range 2 = [0, 1] := by rfl
    norm_num [phraseMakeTable, makeTable, h2, tableStep, List.foldlM_cons,
      List.foldlM_nil]
  have heval2 : sampleNgrams [[1, 2]] 2 0 5 2 1 [0, 0]
      = some ([[1, 2]], [0]) := by
    unfold sampleNgrams
    rw [htable1]
    decide
  constructor
  · intro k hk
    exact sample_phrase_keys_capped.1 [[1, 2], [3, 4], [5, 6, 7, 8, 9, 10, 11, 12]]
      2 2 6 1 [4, 0, 0, 1] [5] [6] [2] heval1 k (by simpa using hk)
  · intro k hk
    exact sample_phrase_keys_capped.2 [[1, 2]] 2 0 5 2 1 [0, 0] [[1, 2]] [0]
      heval2 k (by simpa using hk)

/-! ## Section 6: NegSampler (lines 436-455) -/

/-- `NegSampler.__init__` state (lines 440-445): the wrapped table and the
configured default `neg_count`. -/
structure NegSampler where
  negTable : List ℕ
  negCount : ℕ

/-- `NegSampler.sample` (lines 447-455): when the `neg_count` argument is 0
(its default), it is replaced by the constructor's `neg_count` (lines
448-449); `neg_idx` is the `sample_count × neg_count` matrix of uniform
draws from `npr.randint(0, neg_table_size)`, supplied here as a function of
(row, column); every result entry is the table value at the drawn index
(line 453).  `randint` guarantees in-range indices, so the lookup is total
here (`getD`); the theorems carry that bound as a hypothesis. -/
def NegSampler.sample (s : NegSampler) (sampleCount : ℕ) (negCount : ℕ)
    (negIdx : ℕ → ℕ → ℕ) : List (List ℕ) :=
  (List.range sampleCount).map fun i =>
    (List.range (if negCount = 0 then s.negCount else negCount)).map fun j =>
      s.negTable.getD (negIdx i j) 0

/-- C10 counterexample: with a constructor `neg_count` of 0, the call
`sample(1, 0)` returns a 1 × 0 matrix — a zero-column result CAN be
produced, contradicting the claim that one can never be requested. -/
theorem neg_sampler_zero_columns_counterexample :
    NegSampler.sample ⟨[7], 0⟩ 1 0 (fun _ _ => 0) = [[]] ∧
    ([[]] : List (List ℕ)).length = 1 ∧ ∀ row ∈ ([[]] : List (List ℕ)),
      row.length = 0 := by
  refine ⟨by decide, by decide, ?_⟩
  intro row hrow
  simp at hrow
  subst hrow
  rfl

/-- C10 (amended): `sample(sample_count, neg_count)` returns a
`sample_count × k` matrix whose entries all come from the wrapped table,
where `k` is `neg_count` when nonzero and the constructor's `neg_count`
otherwise (so passing 0 is indistinguishable from omitting the argument);
a zero-column result arises exactly when both the passed `neg_count` and
the constructor's `neg_count` are 0. -/
theorem neg_sampler_sample_spec (s : NegSampler) (sampleCount negCount : ℕ)
    (negIdx : ℕ → ℕ → ℕ) (hidx : ∀ i j, negIdx i j < s.negTable.length) :
    (s.sample sampleCount negCount negIdx).length = sampleCount ∧
    (∀ row ∈ s.sample sampleCount negCount negIdx,
      row.length = (if negCount = 0 then s.negCount else negCount) ∧
      ∀ e ∈ row, e ∈ s.negTable) ∧
    ((if negCount = 0 then s.negCount else negCount) = 0 ↔
      negCount = 0 ∧ s.negCount = 0) := by
  refine ⟨by simp [NegSampler.sample], ?_, ?_⟩
  · intro row hrow
    unfold NegSampler.sample at hrow
    obtain ⟨i, -, rfl⟩ := List.mem_map.mp hrow
    refine ⟨by simp, ?_⟩
    intro e he
    obtain ⟨j, -, rfl⟩ := List.mem_map.mp he
    rw [List.getD_eq_getElem _ _ (hidx i j)]
    exact List.getElem_mem (hidx i j)
  · by_cases h0 : negCount = 0
    · simp [h0]
    · simp [h0]

/-- Closed witness for `neg_sampler_sample_spec` at a concrete sampler. -/
theorem neg_sampler_sample_spec_witness :
    (NegSampler.sample ⟨[3, 4], 2⟩ 2 0 (fun i j => (i + j) % 2)).length = 2 ∧
    (∀ row ∈ NegSampler.sample ⟨[3, 4], 2⟩ 2 0 (fun i j => (i + j) % 2),
      row.length = (if (0 : ℕ) = 0 then (2 : ℕ) else 0) ∧
      ∀ e ∈ row, e ∈ ([3, 4] : List ℕ)) ∧
    ((if (0 : ℕ) = 0 then (2 : ℕ) else 0) = 0 ↔ (0 : ℕ) = 0 ∧ (2 : ℕ) = 0) :=
  neg_sampler_sample_spec ⟨[3, 4], 2⟩ 2 0 (fun i j => (i + j) % 2)
    (fun i j => Nat.mod_lt _ (by decide))

/-! ## Section 7: _create_binary_tree, matrix construction (lines 231-284) -/

/-- The sentinel bound for unused HSM code-key slots (line 30). -/
def MAX_HSM_KEY : ℕ := 12345678

/-- A heap node of `_create_binary_tree`: the `Vocab` objects on the heap
carry an `index` and a `count`; merged nodes additionally carry their two
children (lines 243-245). -/
inductive VNode where
  | leaf (index count : ℕ) : VNode
  | node (index count : ℕ) (l r : VNode) : VNode

/-- The `count` a heap node is ordered by (`Vocab.__lt__`, line 64-65). -/
def VNode.count : VNode → ℕ
  | leaf _ c => c
  | node _ c _ _ => c

/-- `heapq.heappop`: remove a minimum-count node (first minimal one; the
layout-dependent tie-break order of the binary heap is abstracted to
first-occurrence order, which no claim depends on). -/
def popMin : List VNode → Option (VNode × List VNode)
  | [] => none
  | v :: vs =>
    match popMin vs with
    | none => some (v, [])
    | some (m, rest) =>
      if v.count ≤ m.count then some (v, vs) else some (m, v :: rest)

/-- The merge loop of lines 242-245: `k` merges left, next internal index
`i + nTotal`; each step pops the two minima and pushes their merge (the
heap position of the pushed node is abstracted to the front). -/
def mergeSteps (nTotal : ℕ) : ℕ → ℕ → List VNode → Option (List VNode)
  | 0, _, heap => some heap
  | k + 1, i, heap =>
    match popMin heap with
    | none => none
    | some (m1, h1) =>
      match popMin h1 with
      | none => none
      | some (m2, h2) =>
        mergeSteps nTotal k (i + 1)
          (VNode.node (i + nTotal) (m1.count + m2.count) m1 m2 :: h2)

/-- The traversal of lines 249-261.  A stack entry's `signs`/`keys` start as
plain Python lists `[]` (line 250) and become numpy arrays only inside the
internal-node branch (lines 259-261); the Bool flag records "is a numpy
array", because line 263 calls `v.size`, which only exists on arrays.
Leaves store their accumulated path (`key_dict`/`sign_dict`, lines
253-256). -/
def collectCodes (nTotal : ℕ) : VNode → (Bool × List ℕ) → (Bool × List Int) →
    List (ℕ × (Bool × List ℕ) × (Bool × List Int))
  | VNode.leaf i _, keys, signs => [(i, keys, signs)]
  | VNode.node idx _ l r, keys, signs =>
    collectCodes nTotal l (true, keys.2 ++ [idx - nTotal]) (true, signs.2 ++ [-1])
      ++ collectCodes nTotal r (true, keys.2 ++ [idx - nTotal]) (true, signs.2 ++ [1])

/-- `np.max` over a list of naturals: raises (ValueError) on an empty
array, modelled as `none` (line 263-264). -/
def listMax? : List ℕ → Option ℕ
  | [] => none
  | a :: l =>
    match listMax? l with
    | none => some a
    | some m => some (max a m)

/-- `_create_binary_tree` (lines 231-284): build the Huffman tree by heap
merging, traverse it to collect each leaf's code, then materialize the
dense `code_keys`/`code_signs` matrices and `max_code_key`.  Failure points
modelled as `none`: `v.size` on a plain list (AttributeError, line 263,
reachable when the root itself is a leaf), `np.max` over an empty array
(ValueError, lines 263-264, reachable for an empty vocabulary). -/
def createBinaryTree (w2v : List (ℕ × ℕ)) :
    Option (List (List ℕ) × List (List Int) × ℕ) :=
  match mergeSteps w2v.length (w2v.length - 1) 0
      (w2v.map (fun v => VNode.leaf v.1 v.2)) with
  | none => none
  | some heap =>
    let entries :=
      match heap with
      | [] => []
      | root :: _ => collectCodes w2v.length root (false, []) (false, [])
    if entries.all (fun e => e.2.1.1) then
      match listMax? (entries.map (fun e => e.2.1.2.length)) with
      | none => none
      | some maxCodeLen =>
        match listMax? (entries.map (fun e => e.1)) with
        | none => none
        | some maxWordKey =>
          let codeKeys := (List.range (maxWordKey + 1)).map fun k =>
            (List.range maxCodeLen).map fun j =>
              match entries.find? (fun e => e.1 = k) with
              | none => 0
              | some e =>
                if e.2.1.2.length ≤ j then MAX_HSM_KEY + 1
                else e.2.1.2.getD j 0
          let codeSigns := (List.range (maxWordKey + 1)).map fun k =>
            (List.range maxCodeLen).map fun j =>
              match entries.find? (fun e => e.1 = k) with
              | none => 0
              | some e =>
                if e.2.1.2.length ≤ j then 0
                else e.2.2.2.getD j 0
          let maxCodeKey :=
            (entries.flatMap (fun e => e.2.1.2)).foldl max 0
          some (codeKeys, codeSigns, maxCodeKey)
    else none

/-- C3 (the code crashes where the claim requires completion): on the empty
vocabulary, `key_dict` is empty and `np.max(np.array([]))` raises a
ValueError; on a one-token vocabulary, the root is a leaf, so its recorded
code is a plain Python list and `v.size` raises an AttributeError (line
263).  Both failing evaluations of the model are shown here. -/
theorem create_binary_tree_degenerate_crash :
    createBinaryTree [] = none ∧ createBinaryTree [(0, 5)] = none := by
  constructor
  · rfl
  · rfl

/-! ## Section 8: the Huffman merge loop (lines 239-245), its code
assignment (lines 246-261), and the optimality of the code lengths -/

/-- A Huffman tree over leaf weights: the heap nodes of
`_create_binary_tree` with everything but the counts abstracted away (the
code lengths the traversal records depend only on the tree shape over the
counts; `VNode` in Section 7 carries the indices as well). -/
inductive HTree where
  | leaf (w : ℕ) : HTree
  | node (l r : HTree) : HTree
deriving DecidableEq

/-- A merged node's `count` (line 244): the total weight. -/
def HTree.weight : HTree → ℕ
  | leaf w => w
  | node l r => l.weight + r.weight

/-- The weighted path length of the tree, recursively: descending one level
charges every leaf below once, so a node adds the weights of both its
subtrees. -/
def HTree.cost : HTree → ℕ
  | leaf _ => 0
  | node l r => l.cost + r.cost + l.weight + r.weight

/-- The multiset of leaf weights. -/
def HTree.leaves : HTree → Multiset ℕ
  | leaf w => {w}
  | node l r => l.leaves + r.leaves

/-- Height of the tree. -/
def HTree.height : HTree → ℕ
  | leaf _ => 0
  | node l r => max l.height r.height + 1

/-- The subtree at a root-to-node path (`false` = left child, the `-1.0`
sign branch of line 260; `true` = right child, line 261); `none` when the
path leaves the tree. -/
def HTree.sub? : HTree → List Bool → Option HTree
  | t, [] => some t
  | leaf _, _ :: _ => none
  | node l r, b :: p => (if b then r else l).sub? p

/-- Replace the subtree at a path (identity when the path leaves the
tree). -/
def HTree.repl : HTree → List Bool → HTree → HTree
  | _, [], s => s
  | leaf w, _ :: _, _ => leaf w
  | node l r, b :: p, s => if b then node l (r.repl p s) else node (l.repl p s) r

/-- Two paths diverge: they agree on a common prefix and then take
different branches (in particular neither is a prefix of the other). -/
def PathDiv : List Bool → List Bool → Prop
  | [], _ => False
  | _ :: _, [] => False
  | b :: p, c :: q => b ≠ c ∨ (b = c ∧ PathDiv p q)

/-- The code assignment of the iterative traversal (lines 249-261): each
leaf of the tree paired with its root-to-leaf path of branch decisions.
The code length recorded for a token is the length of this path. -/
def HTree.codes : HTree → List Bool → List (ℕ × List Bool)
  | leaf w, pre => [(w, pre)]
  | node l r, pre => l.codes (pre ++ [false]) ++ r.codes (pre ++ [true])

/-- Total weighted code length of a code assignment:
`Σ count_i · code_length_i`. -/
def wpl (C : List (ℕ × List Bool)) : ℕ := (C.map (fun c => c.1 * c.2.length)).sum

/-- A binary prefix code: the codewords of distinct entries pairwise
diverge, i.e. no codeword is a prefix of another (and no two are equal). -/
def PrefFree (C : List (ℕ × List Bool)) : Prop :=
  C.Pairwise (fun c d => PathDiv c.2 d.2)

/-- `heapq.heappop` on the forest (line 243): remove a minimal-weight tree,
first occurrence first (the binary heap's layout-dependent tie-break among
equal counts is abstracted to first-occurrence order; the claims are
invariant under the tie-break). -/
def extractMin : List HTree → Option (HTree × List HTree)
  | [] => none
  | t :: ts =>
    match extractMin ts with
    | none => some (t, [])
    | some (m, rest) =>
      if t.weight ≤ m.weight then some (t, ts) else some (m, t :: rest)

/-- One merge step of lines 243-245: pop the two minima, push their merge
(the pushed node's heap position is abstracted to the front). -/
def huffmanStep (l : List HTree) : List HTree :=
  match extractMin l with
  | none => l
  | some (m1, l1) =>
    match extractMin l1 with
    | none => l
    | some (m2, l2) => HTree.node m1 m2 :: l2

/-- The merge loop of line 242: `len(w2v) − 1` steps. -/
def huffmanLoop : ℕ → List HTree → List HTree
  | 0, l => l
  | n + 1, l => huffmanLoop n (huffmanStep l)

/-- The Huffman tree over a list of counts (lines 239-245): the remaining
tree after the merge loop (`heap[0]`, line 250). -/
def huffmanTree (ws : List ℕ) : Option HTree :=
  (huffmanLoop (ws.length - 1) (ws.map HTree.leaf)).head?

/-- The weight-level image of `extractMin`: remove the first minimal
count. -/
def extractMinW : List ℕ → Option (ℕ × List ℕ)
  | [] => none
  | w :: ws =>
    match extractMinW ws with
    | none => some (w, [])
    | some (m, rest) =>
      if w ≤ m then some (w, ws) else some (m, w :: rest)

/-- The total cost the merge loop adds on top of the initial forest: each
step contributes the sum of the two popped counts.  Fuel-driven, one merge
per fuel unit. -/
def hCostFuel : ℕ → List ℕ → ℕ
  | 0, _ => 0
  | n + 1, ws =>
    match extractMinW ws with
    | none => 0
    | some (a, ws1) =>
      match extractMinW ws1 with
      | none => 0
      | some (b, ws2) => a + b + hCostFuel n ((a + b) :: ws2)


/-- `extractMin` never fails on a non-empty forest. -/
theorem extractMin_ne_none (t : HTree) (ts : List HTree) :
    extractMin (t :: ts) ≠ none := by
  unfold extractMin
  match extractMin ts with
  | none => simp
  | some (m, rest) =>
    dsimp only
    split <;> simp

/-- `extractMin` splits its input (up to permutation) into a weight-minimal
element and the rest. -/
theorem extractMin_spec (l : List HTree) (m : HTree) (rest : List HTree)
    (h : extractMin l = some (m, rest)) :
    List.Perm l (m :: rest) ∧ ∀ t ∈ rest, m.weight ≤ t.weight := by
  induction l generalizing m rest with
  | nil => exact absurd h (by simp [extractMin])
  | cons t ts ih =>
    unfold extractMin at h
    match hrec : extractMin ts with
    | none =>
      rw [hrec] at h
      dsimp only at h
      obtain rfl : ts = [] := by
        cases ts with
        | nil => rfl
        | cons u us => exact absurd hrec (extractMin_ne_none u us)
      have heq : (t, ([] : List HTree)) = (m, rest) := Option.some.inj h
      have h1 : m = t := (congrArg Prod.fst heq).symm
      have h2 : rest = [] := (congrArg Prod.snd heq).symm
      subst h1; subst h2
      exact ⟨List.Perm.refl _, by simp⟩
    | some (m', rest') =>
      rw [hrec] at h
      dsimp only at h
      obtain ⟨hperm', hmin'⟩ := ih m' rest' hrec
      by_cases hle : t.weight ≤ m'.weight
      · rw [if_pos hle] at h
        have heq : (t, ts) = (m, rest) := Option.some.inj h
        have h1 : m = t := (congrArg Prod.fst heq).symm
        have h2 : rest = ts := (congrArg Prod.snd heq).symm
        subst h1; subst h2
        refine ⟨List.Perm.refl _, ?_⟩
        intro u hu
        rcases List.mem_cons.mp ((hperm'.mem_iff).mp hu) with rfl | hur
        · exact hle
        · exact le_trans hle (hmin' u hur)
      · rw [if_neg hle] at h
        have heq : (m', t :: rest') = (m, rest) := Option.some.inj h
        have h1 : m = m' := (congrArg Prod.fst heq).symm
        have h2 : rest = t :: rest' := (congrArg Prod.snd heq).symm
        subst h1; subst h2
        refine ⟨(hperm'.cons t).trans (List.Perm.swap _ _ _), ?_⟩
        intro u hu
        rcases List.mem_cons.mp hu with rfl | hur
        · exact le_of_lt (not_le.mp hle)
        · exact hmin' u hur

/-- `extractMinW` never fails on a non-empty list. -/
theorem extractMinW_ne_none (w : ℕ) (ws : List ℕ) :
    extractMinW (w :: ws) ≠ none := by
  unfold extractMinW
  match extractMinW ws with
  | none => simp
  | some (m, rest) =>
    dsimp only
    split <;> simp

/-- `extractMinW` splits its input (up to permutation) into a minimal count
and the rest. -/
theorem extractMinW_spec (l : List ℕ) (m : ℕ) (rest : List ℕ)
    (h : extractMinW l = some (m, rest)) :
    List.Perm l (m :: rest) ∧ ∀ c ∈ rest, m ≤ c := by
  induction l generalizing m rest with
  | nil => exact absurd h (by simp [extractMinW])
  | cons t ts ih =>
    unfold extractMinW at h
    match hrec : extractMinW ts with
    | none =>
      rw [hrec] at h
      dsimp only at h
      obtain rfl : ts = [] := by
        cases ts with
        | nil => rfl
        | cons u us => exact absurd hrec (extractMinW_ne_none u us)
      have heq : (t, ([] : List ℕ)) = (m, rest) := Option.some.inj h
      have h1 : m = t := (congrArg Prod.fst heq).symm
      have h2 : rest = [] := (congrArg Prod.snd heq).symm
      subst h1; subst h2
      exact ⟨List.Perm.refl _, by simp⟩
    | some (m', rest') =>
      rw [hrec] at h
      dsimp only at h
      obtain ⟨hperm', hmin'⟩ := ih m' rest' hrec
      by_cases hle : t ≤ m'
      · rw [if_pos hle] at h
        have heq : (t, ts) = (m, rest) := Option.some.inj h
        have h1 : m = t := (congrArg Prod.fst heq).symm
        have h2 : rest = ts := (congrArg Prod.snd heq).symm
        subst h1; subst h2
        refine ⟨List.Perm.refl _, ?_⟩
        intro u hu
        rcases List.mem_cons.mp ((hperm'.mem_iff).mp hu) with rfl | hur
        · exact hle
        · exact le_trans hle (hmin' u hur)
      · rw [if_neg hle] at h
        have heq : (m', t :: rest') = (m, rest) := Option.some.inj h
        have h1 : m = m' := (congrArg Prod.fst heq).symm
        have h2 : rest = t :: rest' := (congrArg Prod.snd heq).symm
        subst h1; subst h2
        refine ⟨(hperm'.cons t).trans (List.Perm.swap _ _ _), ?_⟩
        intro u hu
        rcases List.mem_cons.mp hu with rfl | hur
        · exact le_of_lt (not_le.mp hle)
        · exact hmin' u hur

/-- `extractMinW` is the image of `extractMin` under taking weights. -/
theorem extractMinW_map_weight (l : List HTree) :
    extractMinW (l.map HTree.weight)
      = Option.map (fun p => (p.1.weight, p.2.map HTree.weight)) (extractMin l) := by
  induction l with
  | nil => rfl
  | cons t ts ih =>
    rw [List.map_cons]
    unfold extractMinW extractMin
    rw [ih]
    match extractMin ts with
    | none => rfl
    | some (m, rest) =>
      dsimp only [Option.map_some']
      by_cases hle : t.weight ≤ m.weight
      · rw [if_pos hle, if_pos hle]
        rfl
      · rw [if_neg hle, if_neg hle]
        rfl

/-- Simulation of the merge loop: starting from any forest of `n + 1`
trees, `n` merge steps leave exactly one tree; its cost is the forest's
summed cost plus the weight-level merge cost of the forest's weight list,
and its leaves are the union of the forest's leaves. -/
theorem huffmanLoop_sim (n : ℕ) : ∀ (l : List HTree), l.length = n + 1 →
    ∃ T, huffmanLoop n l = [T] ∧
      T.cost = (l.map HTree.cost).sum + hCostFuel n (l.map HTree.weight) ∧
      T.leaves = (l.map HTree.leaves).sum := by
  induction n with
  | zero =>
    intro l hl
    match l, hl with
    | [t], _ =>
      refine ⟨t, rfl, by simp [hCostFuel, huffmanLoop], by simp⟩
  | succ n ih =>
    intro l hl
    match hm1 : extractMin l with
    | none =>
      exfalso
      match l, hl with
      | t :: ts, _ => exact extractMin_ne_none t ts hm1
    | some (m1, l1) =>
      obtain ⟨hperm1, -⟩ := extractMin_spec l m1 l1 hm1
      have hlen1 : l1.length = n + 1 := by
        have := hperm1.length_eq
        simp at this
        omega
      match hm2 : extractMin l1 with
      | none =>
        exfalso
        match l1, hlen1 with
        | t :: ts, _ => exact extractMin_ne_none t ts hm2
      | some (m2, l2) =>
        obtain ⟨hperm2, -⟩ := extractMin_spec l1 m2 l2 hm2
        have hlen2 : l2.length = n := by
          have := hperm2.length_eq
          simp at this
          omega
        have hstep : huffmanStep l = HTree.node m1 m2 :: l2 := by
          unfold huffmanStep
          rw [hm1]
          dsimp only
          rw [hm2]
        have hloop : huffmanLoop (n + 1) l = huffmanLoop n (huffmanStep l) := rfl
        have hlenstep : (HTree.node m1 m2 :: l2).length = n + 1 := by
          simp [hlen2]
        obtain ⟨T, hT, hcost, hleaves⟩ := ih (HTree.node m1 m2 :: l2) hlenstep
        refine ⟨T, by rw [hloop, hstep]; exact hT, ?_, ?_⟩
        · rw [hcost]
          have hsum1 : (l.map HTree.cost).sum = m1.cost + (l1.map HTree.cost).sum := by
            have := (hperm1.map HTree.cost).sum_eq
            simpa using this
          have hsum2 : (l1.map HTree.cost).sum = m2.cost + (l2.map HTree.cost).sum := by
            have := (hperm2.map HTree.cost).sum_eq
            simpa using this
          have hunf : ∀ (k : ℕ) (ws : List ℕ),
              hCostFuel (k + 1) ws
                = (match extractMinW ws with
                  | none => 0
                  | some (a, ws1) =>
                    match extractMinW ws1 with
                    | none => 0
                    | some (b, ws2) => a + b + hCostFuel k ((a + b) :: ws2)) :=
            fun k ws => rfl
          have hw : hCostFuel (n + 1) (l.map HTree.weight)
              = m1.weight + m2.weight
                + hCostFuel n ((m1.weight + m2.weight) :: l2.map HTree.weight) := by
            have he1 : extractMinW (l.map HTree.weight)
                = some (m1.weight, l1.map HTree.weight) := by
              rw [extractMinW_map_weight, hm1]
              rfl
            have he2 : extractMinW (l1.map HTree.weight)
                = some (m2.weight, l2.map HTree.weight) := by
              rw [extractMinW_map_weight, hm2]
              rfl
            rw [hunf n, he1]
            dsimp only
            rw [he2]
          rw [hw]
          have hmapstep : ((HTree.node m1 m2 :: l2).map HTree.cost).sum
              = m1.cost + m2.cost + m1.weight + m2.weight
                + (l2.map HTree.cost).sum := by
            simp only [List.map_cons, List.sum_cons, HTree.cost]
          have hmapw : (HTree.node m1 m2 :: l2).map HTree.weight
              = (m1.weight + m2.weight) :: l2.map HTree.weight := by
            simp only [List.map_cons, HTree.weight]
          rw [hmapstep, hmapw, hsum1, hsum2]
          ring
        · rw [hleaves]
          have hsum1 : (l.map HTree.leaves).sum
              = m1.leaves + (l1.map HTree.leaves).sum := by
            have := (hperm1.map HTree.leaves).sum_eq
            simpa using this
          have hsum2 : (l1.map HTree.leaves).sum
              = m2.leaves + (l2.map HTree.leaves).sum := by
            have := (hperm2.map HTree.leaves).sum_eq
            simpa using this
          rw [hsum1, hsum2]
          simp [HTree.leaves]
          abel

/-- Path lookup distributes over path concatenation. -/
theorem HTree.sub?_append (t : HTree) (p q : List Bool) :
    t.sub? (p ++ q) = (t.sub? p).bind (fun u => u.sub? q) := by
  induction p generalizing t with
  | nil => simp [HTree.sub?]
  | cons b p ih =>
    match t with
    | leaf w => simp [HTree.sub?]
    | node l r =>
      show HTree.sub? (if b then r else l) (p ++ q) = _
      rw [ih]
      rfl

/-- Replacing a subtree exchanges its weight for the replacement's. -/
theorem HTree.weight_repl (t : HTree) (p : List Bool) (u s : HTree)
    (hp : t.sub? p = some u) :
    (t.repl p s).weight + u.weight = t.weight + s.weight := by
  induction p generalizing t with
  | nil =>
    obtain rfl : t = u := Option.some.inj (by simpa [HTree.sub?] using hp)
    simp [HTree.repl]
    omega
  | cons b p ih =>
    match t with
    | leaf w => simp [HTree.sub?] at hp
    | node l r =>
      cases b
      · have hp' : l.sub? p = some u := by simpa [HTree.sub?] using hp
        have h := ih l hp'
        simp only [HTree.repl, if_neg Bool.false_ne_true, HTree.weight]
        omega
      · have hp' : r.sub? p = some u := by simpa [HTree.sub?] using hp
        have h := ih r hp'
        simp only [HTree.repl, if_pos rfl, HTree.weight]
        omega

/-- Replacing a subtree at depth `d` trades `cost u + d·weight u` for
`cost s + d·weight s`. -/
theorem HTree.cost_repl (t : HTree) (p : List Bool) (u s : HTree)
    (hp : t.sub? p = some u) :
    (t.repl p s).cost + u.cost + p.length * u.weight
      = t.cost + s.cost + p.length * s.weight := by
  induction p generalizing t with
  | nil =>
    obtain rfl : t = u := Option.some.inj (by simpa [HTree.sub?] using hp)
    simp [HTree.repl]
    omega
  | cons b p ih =>
    match t with
    | leaf w => simp [HTree.sub?] at hp
    | node l r =>
      cases b
      · have hp' : l.sub? p = some u := by simpa [HTree.sub?] using hp
        have hc := ih l hp'
        have hw := HTree.weight_repl l p u s hp'
        simp only [HTree.repl, if_neg Bool.false_ne_true, HTree.cost,
          List.length_cons, Nat.succ_mul]
        omega
      · have hp' : r.sub? p = some u := by simpa [HTree.sub?] using hp
        have hc := ih r hp'
        have hw := HTree.weight_repl r p u s hp'
        simp only [HTree.repl, if_pos rfl, HTree.cost,
          List.length_cons, Nat.succ_mul]
        omega

/-- Replacing a subtree exchanges its leaves for the replacement's. -/
theorem HTree.leaves_repl (t : HTree) (p : List Bool) (u s : HTree)
    (hp : t.sub? p = some u) :
    (t.repl p s).leaves + u.leaves = t.leaves + s.leaves := by
  induction p generalizing t with
  | nil =>
    obtain rfl : t = u := Option.some.inj (by simpa [HTree.sub?] using hp)
    simp [HTree.repl]
    exact add_comm _ _
  | cons b p ih =>
    match t with
    | leaf w => simp [HTree.sub?] at hp
    | node l r =>
      cases b
      · have hp' : l.sub? p = some u := by simpa [HTree.sub?] using hp
        have h := ih l hp'
        simp only [HTree.repl, if_neg Bool.false_ne_true, HTree.leaves]
        calc (l.repl p s).leaves + r.leaves + u.leaves
            = (l.repl p s).leaves + u.leaves + r.leaves := by
              rw [add_assoc, add_comm r.leaves, ← add_assoc]
          _ = l.leaves + s.leaves + r.leaves := by rw [h]
          _ = l.leaves + r.leaves + s.leaves := by
              rw [add_assoc, add_comm s.leaves, ← add_assoc]
      · have hp' : r.sub? p = some u := by simpa [HTree.sub?] using hp
        have h := ih r hp'
        simp only [HTree.repl, if_pos rfl, HTree.leaves]
        calc l.leaves + (r.repl p s).leaves + u.leaves
            = l.leaves + ((r.repl p s).leaves + u.leaves) := by rw [add_assoc]
          _ = l.leaves + (r.leaves + s.leaves) := by rw [h]
          _ = l.leaves + r.leaves + s.leaves := by rw [add_assoc]

/-- Looking up the replaced path yields the replacement. -/
theorem HTree.sub?_repl_self (t : HTree) (p : List Bool) (u s : HTree)
    (hp : t.sub? p = some u) : (t.repl p s).sub? p = some s := by
  induction p generalizing t with
  | nil => simp [HTree.repl, HTree.sub?]
  | cons b p ih =>
    match t with
    | leaf w => simp [HTree.sub?] at hp
    | node l r =>
      cases b
      · have hp' : l.sub? p = some u := by simpa [HTree.sub?] using hp
        simpa [HTree.repl, HTree.sub?] using ih l hp'
      · have hp' : r.sub? p = some u := by simpa [HTree.sub?] using hp
        simpa [HTree.repl, HTree.sub?] using ih r hp'

/-- Divergence is symmetric. -/
theorem pathDiv_symm (p q : List Bool) (h : PathDiv p q) : PathDiv q p := by
  induction p generalizing q with
  | nil => exact absurd h (by simp [PathDiv])
  | cons b p ih =>
    match q with
    | [] => exact absurd h (by simp [PathDiv])
    | c :: q =>
      unfold PathDiv at h ⊢
      rcases h with h | ⟨rfl, h⟩
      · exact Or.inl (Ne.symm h)
      · exact Or.inr ⟨rfl, ih q h⟩

/-- Replacing along one path does not disturb lookups along a diverging
path. -/
theorem HTree.sub?_repl_div (t : HTree) (p q : List Bool) (s : HTree)
    (hdiv : PathDiv p q) : (t.repl p s).sub? q = t.sub? q := by
  induction p generalizing t q with
  | nil => exact absurd hdiv (by simp [PathDiv])
  | cons b p ih =>
    match q with
    | [] => exact absurd hdiv (by simp [PathDiv])
    | c :: q =>
      match t with
      | leaf w => simp [HTree.repl]
      | node l r =>
        unfold PathDiv at hdiv
        rcases hdiv with hne | ⟨rfl, hdiv⟩
        · cases b <;> cases c
          · exact absurd rfl hne
          · simp [HTree.repl, HTree.sub?]
          · simp [HTree.repl, HTree.sub?]
          · exact absurd rfl hne
        · cases b
          · simpa [HTree.repl, HTree.sub?] using ih l q hdiv
          · simpa [HTree.repl, HTree.sub?] using ih r q hdiv

/-- Distinct root-to-leaf paths always diverge. -/
theorem leafPaths_div (t : HTree) (p q : List Bool) (u v : ℕ)
    (hp : t.sub? p = some (HTree.leaf u)) (hq : t.sub? q = some (HTree.leaf v))
    (hne : p ≠ q) : PathDiv p q := by
  induction t generalizing p q with
  | leaf w =>
    match p, q with
    | [], [] => exact absurd rfl hne
    | [], _ :: _ => exact absurd hq (by simp [HTree.sub?])
    | _ :: _, _ => exact absurd hp (by simp [HTree.sub?])
  | node l r ihl ihr =>
    match p, q with
    | [], _ => exact absurd hp (by simp [HTree.sub?])
    | _ :: _, [] => exact absurd hq (by simp [HTree.sub?])
    | b :: p, c :: q =>
      by_cases hbc : b = c
      · subst hbc
        refine Or.inr ⟨rfl, ?_⟩
        have hne' : p ≠ q := fun h => hne (h ▸ rfl)
        cases b
        · exact ihl p q (by simpa [HTree.sub?] using hp)
            (by simpa [HTree.sub?] using hq) hne'
        · exact ihr p q (by simpa [HTree.sub?] using hp)
            (by simpa [HTree.sub?] using hq) hne'
      · exact Or.inl hbc

/-- A weight is a leaf weight exactly when some root-to-leaf path reaches
it. -/
theorem HTree.mem_leaves_iff (t : HTree) (w : ℕ) :
    w ∈ t.leaves ↔ ∃ p, t.sub? p = some (HTree.leaf w) := by
  constructor
  · intro hw
    induction t with
    | leaf w' =>
      obtain rfl : w = w' := by simpa [HTree.leaves] using hw
      exact ⟨[], rfl⟩
    | node l r ihl ihr =>
      rcases Multiset.mem_add.mp (by simpa [HTree.leaves] using hw) with h | h
      · obtain ⟨p, hp⟩ := ihl h
        exact ⟨false :: p, by simpa [HTree.sub?] using hp⟩
      · obtain ⟨p, hp⟩ := ihr h
        exact ⟨true :: p, by simpa [HTree.sub?] using hp⟩
  · rintro ⟨p, hp⟩
    induction p generalizing t with
    | nil =>
      obtain rfl : t = HTree.leaf w := Option.some.inj (by simpa [HTree.sub?] using hp)
      simp [HTree.leaves]
    | cons b p ih =>
      match t with
      | leaf w' => exact absurd hp (by simp [HTree.sub?])
      | node l r =>
        cases b
        · have := ih l (by simpa [HTree.sub?] using hp)
          simp only [HTree.leaves, Multiset.mem_add]
          exact Or.inl this
        · have := ih r (by simpa [HTree.sub?] using hp)
          simp only [HTree.leaves, Multiset.mem_add]
          exact Or.inr this

/-- Root-to-leaf paths are no longer than the height. -/
theorem leafPath_length_le_height (t : HTree) (p : List Bool) (w : ℕ)
    (hp : t.sub? p = some (HTree.leaf w)) : p.length ≤ t.height := by
  induction p generalizing t with
  | nil => exact Nat.zero_le _
  | cons b p ih =>
    match t with
    | HTree.leaf w' => exact absurd hp (by simp [HTree.sub?])
    | HTree.node l r =>
      cases b
      · have := ih l (by simpa [HTree.sub?] using hp)
        simp only [HTree.height, List.length_cons]
        omega
      · have := ih r (by simpa [HTree.sub?] using hp)
        simp only [HTree.height, List.length_cons]
        omega

/-- Some root-to-leaf path realizes the height. -/
theorem exists_leafPath_of_height (t : HTree) :
    ∃ p w, t.sub? p = some (HTree.leaf w) ∧ p.length = t.height := by
  induction t with
  | leaf w => exact ⟨[], w, rfl, rfl⟩
  | node l r ihl ihr =>
    obtain ⟨pl, wl, hpl, hll⟩ := ihl
    obtain ⟨pr, wr, hpr, hlr⟩ := ihr
    rcases le_total r.height l.height with hle | hle
    · refine ⟨false :: pl, wl, by simpa [HTree.sub?] using hpl, ?_⟩
      simp only [HTree.height, List.length_cons]
      omega
    · refine ⟨true :: pr, wr, by simpa [HTree.sub?] using hpr, ?_⟩
      simp only [HTree.height, List.length_cons]
      omega

/-- Replacing a leaf by a leaf preserves the height. -/
theorem HTree.height_repl_leaf (t : HTree) (p : List Bool) (w w' : ℕ)
    (hp : t.sub? p = some (HTree.leaf w)) :
    (t.repl p (HTree.leaf w')).height = t.height := by
  induction p generalizing t with
  | nil =>
    obtain rfl : t = HTree.leaf w := Option.some.inj (by simpa [HTree.sub?] using hp)
    rfl
  | cons b p ih =>
    match t with
    | leaf v => exact absurd hp (by simp [HTree.sub?])
    | node l r =>
      cases b
      · have := ih l (by simpa [HTree.sub?] using hp)
        simp only [HTree.repl, if_neg Bool.false_ne_true, HTree.height, this]
      · have := ih r (by simpa [HTree.sub?] using hp)
        simp only [HTree.repl, if_pos rfl, HTree.height, this]

/-- Every internal tree has a "cherry" — an internal node with two leaf
children — at depth `height − 1`. -/
theorem exists_cherry : ∀ (t : HTree), (∃ a b, t = HTree.node a b) →
    ∃ (rt : List Bool) (x y : ℕ),
      t.sub? rt = some (HTree.node (HTree.leaf x) (HTree.leaf y)) ∧
      rt.length + 1 = t.height := by
  intro t
  induction t with
  | leaf w =>
    rintro ⟨a, b, h⟩
    exact absurd h (by simp)
  | node l r ihl ihr =>
    rintro -
    rcases le_total r.height l.height with hle | hle
    · cases l with
      | leaf x =>
        cases r with
        | leaf y => exact ⟨[], x, y, rfl, rfl⟩
        | node r1 r2 =>
          exfalso
          simp only [HTree.height] at hle
          omega
      | node l1 l2 =>
        obtain ⟨rt, x, y, hsub, hlen⟩ := ihl ⟨l1, l2, rfl⟩
        refine ⟨false :: rt, x, y, by simpa [HTree.sub?] using hsub, ?_⟩
        simp only [HTree.height, List.length_cons] at hle hlen ⊢
        omega
    · cases r with
      | leaf y =>
        cases l with
        | leaf x => exact ⟨[], x, y, rfl, rfl⟩
        | node l1 l2 =>
          exfalso
          simp only [HTree.height] at hle
          omega
      | node r1 r2 =>
        obtain ⟨rt, x, y, hsub, hlen⟩ := ihr ⟨r1, r2, rfl⟩
        refine ⟨true :: rt, x, y, by simpa [HTree.sub?] using hsub, ?_⟩
        simp only [HTree.height, List.length_cons] at hle hlen ⊢
        omega

/-- Rearrangement: moving the smaller weight to the deeper position (and
vice versa) does not increase the total. -/
theorem cost_rearrange (C C' d1 d2 w1 w2 : ℕ)
    (hA : C' + d1 * w1 + d2 * w2 = C + d1 * w2 + d2 * w1)
    (hd : d1 ≤ d2) (hw : w1 ≤ w2) : C' ≤ C := by
  obtain ⟨k, rfl⟩ := Nat.exists_eq_add_of_le hd
  obtain ⟨m, rfl⟩ := Nat.exists_eq_add_of_le hw
  have h1 : (d1 + k) * (w1 + m) = d1 * w1 + d1 * m + k * w1 + k * m := by ring
  have h2 : d1 * (w1 + m) = d1 * w1 + d1 * m := by ring
  have h3 : (d1 + k) * w1 = d1 * w1 + k * w1 := by ring
  rw [h1, h2, h3] at hA
  obtain ⟨A, hA1⟩ : ∃ A, d1 * w1 = A := ⟨_, rfl⟩
  obtain ⟨B, hB1⟩ : ∃ B, d1 * m = B := ⟨_, rfl⟩
  obtain ⟨D, hD1⟩ : ∃ D, k * w1 = D := ⟨_, rfl⟩
  obtain ⟨E, hE1⟩ : ∃ E, k * m = E := ⟨_, rfl⟩
  rw [hA1, hB1, hD1, hE1] at hA
  omega

/-- Swapping the values of two distinct leaves: preserves the leaf multiset
and the height, exchanges the two values, leaves all other leaf paths
intact, and changes the cost by the exchange identity. -/
theorem swap_leaves (t : HTree) (p1 p2 : List Bool) (u1 u2 : ℕ)
    (hp1 : t.sub? p1 = some (HTree.leaf u1))
    (hp2 : t.sub? p2 = some (HTree.leaf u2)) (hne : p1 ≠ p2) :
    ∃ t' : HTree, t'.leaves = t.leaves ∧ t'.height = t.height ∧
      t'.sub? p1 = some (HTree.leaf u2) ∧ t'.sub? p2 = some (HTree.leaf u1) ∧
      (∀ z w', t.sub? z = some (HTree.leaf w') → z ≠ p1 → z ≠ p2 →
        t'.sub? z = some (HTree.leaf w')) ∧
      t'.cost + p1.length * u1 + p2.length * u2
        = t.cost + p1.length * u2 + p2.length * u1 := by
  have hdiv : PathDiv p1 p2 := leafPaths_div t p1 p2 u1 u2 hp1 hp2 hne
  have hdiv' : PathDiv p2 p1 := pathDiv_symm _ _ hdiv
  have h1p2 : (t.repl p1 (HTree.leaf u2)).sub? p2 = some (HTree.leaf u2) := by
    rw [HTree.sub?_repl_div t p1 p2 _ hdiv]
    exact hp2
  have h1p1 : (t.repl p1 (HTree.leaf u2)).sub? p1 = some (HTree.leaf u2) :=
    HTree.sub?_repl_self t p1 _ _ hp1
  refine ⟨(t.repl p1 (HTree.leaf u2)).repl p2 (HTree.leaf u1), ?_, ?_, ?_, ?_, ?_, ?_⟩
  · have hl1 := HTree.leaves_repl t p1 (HTree.leaf u1) (HTree.leaf u2) hp1
    have hl2 := HTree.leaves_repl (t.repl p1 (HTree.leaf u2)) p2
      (HTree.leaf u2) (HTree.leaf u1) h1p2
    simp only [HTree.leaves] at hl1 hl2
    have hkey : ((t.repl p1 (HTree.leaf u2)).repl p2 (HTree.leaf u1)).leaves + {u2}
        = t.leaves + {u2} := by
      rw [hl2, hl1]
    exact add_right_cancel hkey
  · rw [HTree.height_repl_leaf (t.repl p1 (HTree.leaf u2)) p2 u2 u1 h1p2,
      HTree.height_repl_leaf t p1 u1 u2 hp1]
  · rw [HTree.sub?_repl_div _ p2 p1 _ hdiv']
    exact h1p1
  · exact HTree.sub?_repl_self _ p2 _ _ h1p2
  · intro z w' hz hz1 hz2
    have hdz1 : PathDiv p1 z :=
      pathDiv_symm _ _ (leafPaths_div t z p1 w' u1 hz hp1 hz1)
    have hmid : (t.repl p1 (HTree.leaf u2)).sub? z = some (HTree.leaf w') := by
      rw [HTree.sub?_repl_div t p1 z _ hdz1]
      exact hz
    have hdz2 : PathDiv p2 z :=
      pathDiv_symm _ _
        (leafPaths_div (t.repl p1 (HTree.leaf u2)) z p2 w' u2 hmid h1p2 hz2)
    rw [HTree.sub?_repl_div _ p2 z _ hdz2]
    exact hmid
  · have hc1 := HTree.cost_repl t p1 (HTree.leaf u1) (HTree.leaf u2) hp1
    have hc2 := HTree.cost_repl (t.repl p1 (HTree.leaf u2)) p2
      (HTree.leaf u2) (HTree.leaf u1) h1p2
    simp only [HTree.cost, HTree.weight, Nat.add_zero] at hc1 hc2
    obtain ⟨A, hA⟩ : ∃ A, p1.length * u1 = A := ⟨_, rfl⟩
    obtain ⟨B, hB⟩ : ∃ B, p1.length * u2 = B := ⟨_, rfl⟩
    obtain ⟨D, hD⟩ : ∃ D, p2.length * u1 = D := ⟨_, rfl⟩
    obtain ⟨E, hE⟩ : ∃ E, p2.length * u2 = E := ⟨_, rfl⟩
    rw [hA, hB] at hc1
    rw [hE, hD] at hc2
    rw [hA, hB, hD, hE]
    omega

/-- The value at one leaf path still occurs among the leaves after removing
one occurrence of the value at a different leaf path. -/
theorem leaf_val_mem_erase (t : HTree) (p q : List Bool) (u v : ℕ)
    (hp : t.sub? p = some (HTree.leaf u)) (hq : t.sub? q = some (HTree.leaf v))
    (hne : q ≠ p) : v ∈ t.leaves.erase u := by
  by_cases huv : v = u
  · subst huv
    have hdiv : PathDiv p q := leafPaths_div t p q v v hp hq (Ne.symm hne)
    have hrepl := HTree.leaves_repl t p (HTree.leaf v) (HTree.leaf (v + 1)) hp
    simp only [HTree.leaves] at hrepl
    have hq' : (t.repl p (HTree.leaf (v + 1))).sub? q = some (HTree.leaf v) := by
      rw [HTree.sub?_repl_div t p q _ hdiv]
      exact hq
    have hmem : v ∈ (t.repl p (HTree.leaf (v + 1))).leaves :=
      (HTree.mem_leaves_iff _ _).mpr ⟨q, hq'⟩
    have hcnt := congrArg (Multiset.count v) hrepl
    simp only [Multiset.count_add, Multiset.count_singleton, eq_self_iff_true,
      if_true] at hcnt
    rw [if_neg (by omega : ¬ v = v + 1)] at hcnt
    have h1 : 1 ≤ Multiset.count v (t.repl p (HTree.leaf (v + 1))).leaves :=
      Multiset.one_le_count_iff_mem.mpr hmem
    have h2 : 2 ≤ Multiset.count v t.leaves := by omega
    have h3 : 1 ≤ Multiset.count v (t.leaves.erase v) := by
      rw [Multiset.count_erase_self]
      omega
    exact Multiset.one_le_count_iff_mem.mp h3
  · exact (Multiset.mem_erase_of_ne huv).mpr ((HTree.mem_leaves_iff _ _).mpr ⟨q, hq⟩)

/-- If `v` still occurs after removing one occurrence of the value at leaf
path `p`, then some other leaf path carries `v`. -/
theorem exists_second_path (t : HTree) (p : List Bool) (u v : ℕ)
    (hp : t.sub? p = some (HTree.leaf u)) (hv : v ∈ t.leaves.erase u) :
    ∃ q, q ≠ p ∧ t.sub? q = some (HTree.leaf v) := by
  have hrepl := HTree.leaves_repl t p (HTree.leaf u) (HTree.leaf (u + v + 1)) hp
  simp only [HTree.leaves] at hrepl
  have hvne : ¬ v = u + v + 1 := by omega
  have hcnt := congrArg (Multiset.count v) hrepl
  simp only [Multiset.count_add, Multiset.count_singleton] at hcnt
  rw [if_neg hvne] at hcnt
  have hmem : v ∈ (t.repl p (HTree.leaf (u + v + 1))).leaves := by
    rw [← Multiset.one_le_count_iff_mem]
    by_cases huv : v = u
    · subst huv
      rw [if_pos rfl] at hcnt
      have : 1 ≤ Multiset.count v (t.leaves.erase v) :=
        Multiset.one_le_count_iff_mem.mpr hv
      rw [Multiset.count_erase_self] at this
      omega
    · rw [if_neg huv] at hcnt
      have : 1 ≤ Multiset.count v t.leaves :=
        Multiset.one_le_count_iff_mem.mpr (Multiset.mem_of_mem_erase hv)
      omega
  obtain ⟨q, hq⟩ := (HTree.mem_leaves_iff _ _).mp hmem
  have hps : (t.repl p (HTree.leaf (u + v + 1))).sub? p
      = some (HTree.leaf (u + v + 1)) := HTree.sub?_repl_self t p _ _ hp
  have hqp : q ≠ p := by
    rintro rfl
    rw [hq] at hps
    have := Option.some.inj hps
    have : v = u + v + 1 := by
      have h2 := congrArg (fun x => match x with | HTree.leaf w => w | _ => 0) this
      simpa using h2
    omega
  have hdiv : PathDiv p q :=
    pathDiv_symm _ _
      (leafPaths_div (t.repl p (HTree.leaf (u + v + 1))) q p v (u + v + 1)
        hq hps hqp)
  refine ⟨q, hqp, ?_⟩
  rw [← HTree.sub?_repl_div t p q (HTree.leaf (u + v + 1)) hdiv]
  exact hq

/-- If both children positions below a path hold given subtrees, the path
holds their join. -/
theorem sub?_node_of_children (t : HTree) (rt : List Bool) (u v : HTree)
    (hf : t.sub? (rt ++ [false]) = some u) (ht : t.sub? (rt ++ [true]) = some v) :
    t.sub? rt = some (HTree.node u v) := by
  rw [HTree.sub?_append] at hf ht
  match hrt : t.sub? rt with
  | none => rw [hrt] at hf; exact absurd hf (by simp)
  | some c =>
    rw [hrt] at hf ht
    match c with
    | HTree.leaf w =>
      exact absurd hf (by simp [HTree.sub?])
    | HTree.node c1 c2 =>
      have h1 : c1 = u := by
        have : HTree.sub? c1 [] = some u := by simpa [HTree.sub?] using hf
        exact Option.some.inj (by simpa [HTree.sub?] using this)
      have h2 : c2 = v := by
        have : HTree.sub? c2 [] = some v := by simpa [HTree.sub?] using ht
        exact Option.some.inj (by simpa [HTree.sub?] using this)
      rw [h1, h2]

/-- The exchange step of the textbook optimality argument: in any tree with
at least two leaves, the two smallest leaf weights can be merged into a
single leaf carrying their sum while lowering the cost by at least their
sum. -/
theorem huffman_exchange (T : HTree) (hcard : 2 ≤ Multiset.card T.leaves)
    (a b : ℕ) (ha : a ∈ T.leaves) (hb : b ∈ T.leaves.erase a)
    (hmina : ∀ c ∈ T.leaves, a ≤ c) (hminb : ∀ c ∈ T.leaves.erase a, b ≤ c) :
    ∃ T' : HTree, T'.leaves = (T.leaves.erase a).erase b + {a + b} ∧
      T'.cost + a + b ≤ T.cost := by
  have hint : ∃ L R, T = HTree.node L R := by
    cases T with
    | leaf w =>
      exfalso
      simp [HTree.leaves] at hcard
    | node L R => exact ⟨L, R, rfl⟩
  obtain ⟨rt, x, y, hch, hht⟩ := exists_cherry T hint
  have hpq : rt ++ [false] ≠ rt ++ [true] := by simp
  have hp : T.sub? (rt ++ [false]) = some (HTree.leaf x) := by
    rw [HTree.sub?_append, hch]
    rfl
  have hq : T.sub? (rt ++ [true]) = some (HTree.leaf y) := by
    rw [HTree.sub?_append, hch]
    rfl
  have hplen : (rt ++ [false]).length = T.height := by
    simp only [List.length_append, List.length_cons, List.length_nil]
    omega
  have hqlen : (rt ++ [true]).length = T.height := by
    simp only [List.length_append, List.length_cons, List.length_nil]
    omega
  obtain ⟨pa, hpa⟩ := (HTree.mem_leaves_iff T a).mp ha
  have hphase1 : ∃ T1 : HTree, T1.leaves = T.leaves ∧ T1.height = T.height ∧
      T1.cost ≤ T.cost ∧ T1.sub? (rt ++ [false]) = some (HTree.leaf a) ∧
      ∃ y1, T1.sub? (rt ++ [true]) = some (HTree.leaf y1) := by
    by_cases hpap : pa = rt ++ [false]
    · exact ⟨T, rfl, rfl, le_refl _, by rw [← hpap]; exact hpa, ⟨y, hq⟩⟩
    · obtain ⟨T1, hl, hh, hsp1, hsp2, hpres, hcost⟩ :=
        swap_leaves T pa (rt ++ [false]) a x hpa hp hpap
      refine ⟨T1, hl, hh, ?_, hsp2, ?_⟩
      · have hxa : a ≤ x := hmina x ((HTree.mem_leaves_iff T x).mpr ⟨_, hp⟩)
        have hdep : pa.length ≤ (rt ++ [false]).length := by
          rw [hplen]
          exact leafPath_length_le_height T pa a hpa
        exact cost_rearrange T.cost T1.cost pa.length (rt ++ [false]).length a x
          hcost hdep hxa
      · by_cases hqpa : rt ++ [true] = pa
        · refine ⟨x, ?_⟩
          rw [hqpa]
          exact hsp1
        · exact ⟨y, hpres (rt ++ [true]) y hq hqpa (Ne.symm hpq)⟩
  obtain ⟨T1, hl1, hh1, hc1, hp1, y1, hq1⟩ := hphase1
  have hb1 : b ∈ T1.leaves.erase a := by rw [hl1]; exact hb
  obtain ⟨pb, hpbne, hpb⟩ := exists_second_path T1 (rt ++ [false]) a b hp1 hb1
  have hphase2 : ∃ T2 : HTree, T2.leaves = T.leaves ∧
      T2.cost ≤ T.cost ∧ T2.sub? (rt ++ [false]) = some (HTree.leaf a) ∧
      T2.sub? (rt ++ [true]) = some (HTree.leaf b) := by
    by_cases hpbq : pb = rt ++ [true]
    · exact ⟨T1, hl1, hc1, hp1, by rw [← hpbq]; exact hpb⟩
    · obtain ⟨T2, hl, hh, hsp1, hsp2, hpres, hcost⟩ :=
        swap_leaves T1 pb (rt ++ [true]) b y1 hpb hq1 hpbq
      refine ⟨T2, by rw [hl, hl1], ?_, ?_, hsp2⟩
      · have hby1 : b ≤ y1 := by
          apply hminb
          have := leaf_val_mem_erase T1 (rt ++ [false]) (rt ++ [true]) a y1
            hp1 hq1 (Ne.symm hpq)
          rwa [hl1] at this
        have hdep : pb.length ≤ (rt ++ [true]).length := by
          rw [hqlen, ← hh1]
          exact leafPath_length_le_height T1 pb b hpb
        exact le_trans
          (cost_rearrange T1.cost T2.cost pb.length (rt ++ [true]).length b y1
            hcost hdep hby1) hc1
      · exact hpres (rt ++ [false]) a hp1 (Ne.symm hpbne) hpq
  obtain ⟨T2, hl2, hc2, hp2, hq2⟩ := hphase2
  have hcherry : T2.sub? rt = some (HTree.node (HTree.leaf a) (HTree.leaf b)) :=
    sub?_node_of_children T2 rt _ _ hp2 hq2
  refine ⟨T2.repl rt (HTree.leaf (a + b)), ?_, ?_⟩
  · have hrepl := HTree.leaves_repl T2 rt _ (HTree.leaf (a + b)) hcherry
    simp only [HTree.leaves] at hrepl
    have e1 : {a} + T.leaves.erase a = T.leaves := by
      rw [Multiset.singleton_add]
      exact Multiset.cons_erase ha
    have e2 : {b} + (T.leaves.erase a).erase b = T.leaves.erase a := by
      rw [Multiset.singleton_add]
      exact Multiset.cons_erase hb
    have htarget : ((T.leaves.erase a).erase b + {a + b}) + ({a} + {b})
        = T2.leaves + {a + b} := by
      rw [hl2]
      calc ((T.leaves.erase a).erase b + {a + b}) + ({a} + {b})
          = ({a} + ({b} + (T.leaves.erase a).erase b)) + {a + b} := by abel
        _ = ({a} + T.leaves.erase a) + {a + b} := by rw [e2]
        _ = T.leaves + {a + b} := by rw [e1]
    exact add_right_cancel (hrepl.trans htarget.symm)
  · have hcost := HTree.cost_repl T2 rt _ (HTree.leaf (a + b)) hcherry
    simp only [HTree.cost, HTree.weight] at hcost
    obtain ⟨K, hK⟩ : ∃ K, rt.length * (a + b) = K := ⟨_, rfl⟩
    rw [hK] at hcost
    omega

/-- Unfolding equation for one merge of the weight-level cost. -/
theorem hCostFuel_step (k : ℕ) (ws : List ℕ) (a b : ℕ) (ws1 ws2 : List ℕ)
    (h1 : extractMinW ws = some (a, ws1)) (h2 : extractMinW ws1 = some (b, ws2)) :
    hCostFuel (k + 1) ws = a + b + hCostFuel k ((a + b) :: ws2) := by
  have hunf : ∀ (m : ℕ) (vs : List ℕ),
      hCostFuel (m + 1) vs
        = (match extractMinW vs with
          | none => 0
          | some (a, vs1) =>
            match extractMinW vs1 with
            | none => 0
            | some (b, vs2) => a + b + hCostFuel m ((a + b) :: vs2)) :=
    fun m vs => rfl
  rw [hunf k, h1]
  dsimp only
  rw [h2]

/-- Optimality of the weight-level Huffman cost: it is a lower bound for
the cost of every binary tree carrying the given counts as leaves. -/
theorem hCostFuel_optimal (n : ℕ) : ∀ (ws : List ℕ) (T : HTree),
    ws.length = n + 1 → T.leaves = (ws : Multiset ℕ) →
    hCostFuel n ws ≤ T.cost := by
  induction n with
  | zero =>
    intro ws T hlen hT
    simp [hCostFuel]
  | succ n ih =>
    intro ws T hlen hT
    match hm1 : extractMinW ws with
    | none =>
      exfalso
      match ws, hlen with
      | w :: ws', _ => exact extractMinW_ne_none w ws' hm1
    | some (a, ws1) =>
      obtain ⟨hperm1, hmin1⟩ := extractMinW_spec ws a ws1 hm1
      have hlen1 : ws1.length = n + 1 := by
        have := hperm1.length_eq
        simp at this
        omega
      match hm2 : extractMinW ws1 with
      | none =>
        exfalso
        match ws1, hlen1 with
        | w :: ws', _ => exact extractMinW_ne_none w ws' hm2
      | some (b, ws2) =>
        obtain ⟨hperm2, hmin2⟩ := extractMinW_spec ws1 b ws2 hm2
        have hlen2 : ws2.length = n := by
          have := hperm2.length_eq
          simp at this
          omega
        have hws : (ws : Multiset ℕ) = a ::ₘ (ws1 : Multiset ℕ) :=
          (Multiset.coe_eq_coe.mpr hperm1).trans (Multiset.cons_coe a ws1).symm
        have hws1 : (ws1 : Multiset ℕ) = b ::ₘ (ws2 : Multiset ℕ) :=
          (Multiset.coe_eq_coe.mpr hperm2).trans (Multiset.cons_coe b ws2).symm
        have hcard : 2 ≤ Multiset.card T.leaves := by
          rw [hT, Multiset.coe_card, hlen]
          omega
        have ha : a ∈ T.leaves := by
          rw [hT, hws]
          exact Multiset.mem_cons_self a _
        have herase : T.leaves.erase a = (ws1 : Multiset ℕ) := by
          rw [hT, hws, Multiset.erase_cons_head]
        have hb : b ∈ T.leaves.erase a := by
          rw [herase, hws1]
          exact Multiset.mem_cons_self b _
        have hmina : ∀ c ∈ T.leaves, a ≤ c := by
          intro c hc
          rw [hT, hws] at hc
          rcases Multiset.mem_cons.mp hc with rfl | hc
          · exact le_refl c
          · exact hmin1 c (by exact_mod_cast hc)
        have hminb : ∀ c ∈ T.leaves.erase a, b ≤ c := by
          intro c hc
          rw [herase, hws1] at hc
          rcases Multiset.mem_cons.mp hc with rfl | hc
          · exact le_refl c
          · exact hmin2 c (by exact_mod_cast hc)
        obtain ⟨T', hT', hcost'⟩ :=
          huffman_exchange T hcard a b ha hb hmina hminb
        have hT'leaves : T'.leaves = (((a + b) :: ws2 : List ℕ) : Multiset ℕ) := by
          rw [hT', herase, hws1, Multiset.erase_cons_head]
          rw [show (((a + b) :: ws2 : List ℕ) : Multiset ℕ)
            = (a + b) ::ₘ (ws2 : Multiset ℕ) from (Multiset.cons_coe _ _).symm]
          rw [← Multiset.singleton_add]
          exact add_comm _ _
        have hstep := hCostFuel_step n ws a b ws1 ws2 hm1 hm2
        have hrec : hCostFuel n ((a + b) :: ws2) ≤ T'.cost :=
          ih ((a + b) :: ws2) T' (by simp [hlen2]) hT'leaves
        omega

/-- The entries of the code assignment carry the leaf weights. -/
theorem HTree.codes_fst (t : HTree) (pre : List Bool) :
    (((t.codes pre).map Prod.fst : List ℕ) : Multiset ℕ) = t.leaves := by
  induction t generalizing pre with
  | leaf w => simp [HTree.codes, HTree.leaves]
  | node l r ihl ihr =>
    show ((((l.codes (pre ++ [false]) ++ r.codes (pre ++ [true])).map
      Prod.fst : List ℕ)) : Multiset ℕ) = l.leaves + r.leaves
    rw [List.map_append, ← Multiset.coe_add, ihl, ihr]

/-- The weighted code length of the traversal's assignment equals the
tree's cost (plus the prefix surcharge). -/
theorem HTree.wpl_codes (t : HTree) (pre : List Bool) :
    wpl (t.codes pre) = t.cost + pre.length * t.weight := by
  induction t generalizing pre with
  | leaf w =>
    simp [HTree.codes, wpl, HTree.cost, HTree.weight]
    ring
  | node l r ihl ihr =>
    show wpl (l.codes (pre ++ [false]) ++ r.codes (pre ++ [true])) = _
    have hsplit : wpl (l.codes (pre ++ [false]) ++ r.codes (pre ++ [true]))
        = wpl (l.codes (pre ++ [false])) + wpl (r.codes (pre ++ [true])) := by
      unfold wpl
      rw [List.map_append, List.sum_append]
    rw [hsplit, ihl, ihr]
    simp only [List.length_append, List.length_cons, List.length_nil,
      HTree.cost, HTree.weight]
    ring

/-- Every codeword of the traversal extends the prefix it started from. -/
theorem HTree.codes_ext (t : HTree) (pre : List Bool) :
    ∀ c ∈ t.codes pre, ∃ s, c.2 = pre ++ s := by
  induction t generalizing pre with
  | leaf w =>
    intro c hc
    obtain rfl : c = (w, pre) := by simpa [HTree.codes] using hc
    exact ⟨[], by simp⟩
  | node l r ihl ihr =>
    intro c hc
    rcases List.mem_append.mp (by simpa [HTree.codes] using hc) with h | h
    · obtain ⟨s, hs⟩ := ihl (pre ++ [false]) c h
      exact ⟨false :: s, by simp [hs]⟩
    · obtain ⟨s, hs⟩ := ihr (pre ++ [true]) c h
      exact ⟨true :: s, by simp [hs]⟩

/-- Paths forking after a common prefix diverge. -/
theorem pathDiv_fork (pre : List Bool) (s1 s2 : List Bool) :
    PathDiv (pre ++ false :: s1) (pre ++ true :: s2) := by
  induction pre with
  | nil => exact Or.inl (by simp)
  | cons b pre ih => exact Or.inr ⟨rfl, ih⟩

/-- The traversal's code assignment is a binary prefix code. -/
theorem HTree.codes_prefFree (t : HTree) (pre : List Bool) :
    PrefFree (t.codes pre) := by
  induction t generalizing pre with
  | leaf w => simp [HTree.codes, PrefFree]
  | node l r ihl ihr =>
    show PrefFree (l.codes (pre ++ [false]) ++ r.codes (pre ++ [true]))
    unfold PrefFree
    rw [List.pairwise_append]
    refine ⟨ihl _, ihr _, ?_⟩
    intro c hc d hd
    obtain ⟨s1, hs1⟩ := HTree.codes_ext l (pre ++ [false]) c hc
    obtain ⟨s2, hs2⟩ := HTree.codes_ext r (pre ++ [true]) d hd
    rw [hs1, hs2, List.append_assoc, List.append_assoc]
    exact pathDiv_fork pre s1 s2

/-- Diverging paths are both non-empty. -/
theorem pathDiv_ne_nil (p q : List Bool) (h : PathDiv p q) : p ≠ [] ∧ q ≠ [] := by
  match p, q with
  | [], _ => exact absurd h (by simp [PathDiv])
  | _ :: _, [] => exact absurd h (by simp [PathDiv])
  | _ :: _, _ :: _ => exact ⟨by simp, by simp⟩

/-- A tree's weight is the sum of its leaf weights. -/
theorem HTree.weight_eq_leaves_sum (t : HTree) : t.weight = t.leaves.sum := by
  induction t with
  | leaf w => simp [HTree.weight, HTree.leaves]
  | node l r ihl ihr => simp [HTree.weight, HTree.leaves, ihl, ihr]

/-- The subcode of the codewords starting with bit `b`, with that bit
stripped: the code handed to one child when decoding one step. -/
def tailsOf (b : Bool) (C : List (ℕ × List Bool)) : List (ℕ × List Bool) :=
  C.filterMap (fun c => match c.2 with
    | [] => none
    | b' :: rest => if b' = b then some (c.1, rest) else none)

/-- Membership in a subcode comes from a codeword with the bit
prepended. -/
theorem mem_tailsOf (b : Bool) (C : List (ℕ × List Bool)) (c : ℕ × List Bool)
    (hc : c ∈ tailsOf b C) : (c.1, b :: c.2) ∈ C := by
  induction C with
  | nil => exact absurd hc (by simp [tailsOf])
  | cons e C ih =>
    unfold tailsOf at hc
    rw [List.filterMap_cons] at hc
    match he : e.2 with
    | [] =>
      rw [he] at hc
      dsimp only at hc
      exact List.mem_cons_of_mem e (ih (by simpa [tailsOf] using hc))
    | b' :: rest =>
      rw [he] at hc
      dsimp only at hc
      by_cases hbb : b' = b
      · rw [if_pos hbb] at hc
        rcases List.mem_cons.mp hc with hceq | hc2
        · subst hbb
          refine List.mem_cons.mpr (Or.inl ?_)
          rw [hceq]
          show (e.1, b' :: rest) = e
          rw [← he]
        · exact List.mem_cons_of_mem e (ih (by simpa [tailsOf] using hc2))
      · rw [if_neg hbb] at hc
        exact List.mem_cons_of_mem e (ih (by simpa [tailsOf] using hc))

/-- One-entry unfolding of the weighted code length. -/
theorem wpl_cons (c : ℕ × List Bool) (C : List (ℕ × List Bool)) :
    wpl (c :: C) = c.1 * c.2.length + wpl C := by
  simp [wpl]

/-- Head normalization of the subcode extraction. -/
theorem tailsOf_cons (b : Bool) (e : ℕ × List Bool) (C : List (ℕ × List Bool))
    (b' : Bool) (rest : List Bool) (he : e.2 = b' :: rest) :
    tailsOf b (e :: C)
      = if b' = b then (e.1, rest) :: tailsOf b C else tailsOf b C := by
  unfold tailsOf
  rw [List.filterMap_cons, he]
  dsimp only
  by_cases hb : b' = b
  · rw [if_pos hb, if_pos hb]
  · rw [if_neg hb, if_neg hb]

/-- The two subcodes partition the symbols of a code with non-empty
codewords. -/
theorem tailsOf_perm (C : List (ℕ × List Bool)) (hne : ∀ c ∈ C, c.2 ≠ []) :
    List.Perm ((tailsOf false C).map Prod.fst ++ (tailsOf true C).map Prod.fst)
      (C.map Prod.fst) := by
  induction C with
  | nil => simp [tailsOf]
  | cons e C ih =>
    have hne' : ∀ c ∈ C, c.2 ≠ [] := fun c hc => hne c (List.mem_cons_of_mem e hc)
    have hperm := ih hne'
    match he : e.2 with
    | [] => exact absurd he (hne e (by simp))
    | b :: rest =>
      have hf := tailsOf_cons false e C b rest he
      have ht := tailsOf_cons true e C b rest he
      cases b
      · rw [if_pos rfl] at hf
        rw [if_neg (by simp)] at ht
        rw [hf, ht, List.map_cons, List.map_cons]
        exact (List.Perm.cons e.1 hperm)
      · rw [if_neg (by simp)] at hf
        rw [if_pos rfl] at ht
        rw [hf, ht, List.map_cons, List.map_cons]
        exact List.perm_middle.trans (List.Perm.cons e.1 hperm)

/-- Total codeword length identity: each non-empty codeword loses exactly
one bit when split into the two subcodes. -/
theorem tailsOf_totalLen (C : List (ℕ × List Bool)) (hne : ∀ c ∈ C, c.2 ≠ []) :
    (C.map (fun c => c.2.length)).sum
      = ((tailsOf false C).map (fun c => c.2.length)).sum
        + ((tailsOf true C).map (fun c => c.2.length)).sum + C.length := by
  induction C with
  | nil => simp [tailsOf]
  | cons e C ih =>
    have hne' : ∀ c ∈ C, c.2 ≠ [] := fun c hc => hne c (List.mem_cons_of_mem e hc)
    have hih := ih hne'
    match he : e.2 with
    | [] => exact absurd he (hne e (by simp))
    | b :: rest =>
      have hf := tailsOf_cons false e C b rest he
      have ht := tailsOf_cons true e C b rest he
      cases b
      · rw [if_pos rfl] at hf
        rw [if_neg (by simp)] at ht
        rw [hf, ht, List.map_cons, List.sum_cons, List.map_cons, List.sum_cons,
          he, List.length_cons, List.length_cons]
        dsimp only
        omega
      · rw [if_neg (by simp)] at hf
        rw [if_pos rfl] at ht
        rw [hf, ht, List.map_cons, List.sum_cons, List.map_cons, List.sum_cons,
          he, List.length_cons, List.length_cons]
        dsimp only
        omega

/-- Weighted-length identity for the split: each symbol pays its weight
once for the stripped bit. -/
theorem tailsOf_wpl (C : List (ℕ × List Bool)) (hne : ∀ c ∈ C, c.2 ≠ []) :
    wpl C = wpl (tailsOf false C) + wpl (tailsOf true C)
      + (C.map Prod.fst).sum := by
  induction C with
  | nil => simp [tailsOf, wpl]
  | cons e C ih =>
    have hne' : ∀ c ∈ C, c.2 ≠ [] := fun c hc => hne c (List.mem_cons_of_mem e hc)
    have hih := ih hne'
    match he : e.2 with
    | [] => exact absurd he (hne e (by simp))
    | b :: rest =>
      have hf := tailsOf_cons false e C b rest he
      have ht := tailsOf_cons true e C b rest he
      cases b
      · rw [if_pos rfl] at hf
        rw [if_neg (by simp)] at ht
        rw [hf, ht, wpl_cons, wpl_cons, he, List.map_cons, List.sum_cons,
          List.length_cons, Nat.mul_succ]
        obtain ⟨A, hA⟩ : ∃ A, e.1 * rest.length = A := ⟨_, rfl⟩
        rw [hA]
        omega
      · rw [if_neg (by simp)] at hf
        rw [if_pos rfl] at ht
        rw [hf, ht, wpl_cons, wpl_cons, he, List.map_cons, List.sum_cons,
          List.length_cons, Nat.mul_succ]
        obtain ⟨A, hA⟩ : ∃ A, e.1 * rest.length = A := ⟨_, rfl⟩
        rw [hA]
        omega

/-- A subcode of a prefix code is a prefix code. -/
theorem tailsOf_prefFree (b : Bool) (C : List (ℕ × List Bool))
    (hpf : PrefFree C) : PrefFree (tailsOf b C) := by
  induction C with
  | nil => simp [tailsOf, PrefFree]
  | cons e C ih =>
    obtain ⟨hrel, hpf'⟩ := List.pairwise_cons.mp hpf
    match he : e.2 with
    | [] =>
      rw [tailsOf, List.filterMap_cons, he]
      exact ih hpf'
    | b' :: rest =>
      rw [tailsOf_cons b e C b' rest he]
      by_cases hbb : b' = b
      · rw [if_pos hbb]
        refine List.pairwise_cons.mpr ⟨?_, ih hpf'⟩
        intro d' hd'
        have hd := mem_tailsOf b C d' hd'
        have hdiv := hrel _ hd
        rw [he] at hdiv
        subst hbb
        rcases hdiv with hne | ⟨-, hdiv⟩
        · exact absurd rfl hne
        · exact hdiv
      · rw [if_neg hbb]
        exact ih hpf'

/-- In a prefix code with at least two symbols no codeword is empty. -/
theorem prefFree_ne_nil (C : List (ℕ × List Bool)) (hpf : PrefFree C)
    (hlen : 2 ≤ C.length) : ∀ c ∈ C, c.2 ≠ [] := by
  match C, hlen with
  | e1 :: e2 :: C', _ =>
    obtain ⟨hrel1, hpf2⟩ := List.pairwise_cons.mp hpf
    intro c hc
    rcases List.mem_cons.mp hc with rfl | hc
    · exact (pathDiv_ne_nil _ _ (hrel1 e2 (by simp))).1
    · exact (pathDiv_ne_nil _ _ (hrel1 c hc)).2

/-- Every binary prefix code can be turned into a code tree over the same
weights whose cost is at most the code's total weighted length (pruning
one-child nodes along the way). -/
theorem prefFree_to_tree (N : ℕ) : ∀ (C : List (ℕ × List Bool)),
    (C.map (fun c => c.2.length)).sum ≤ N → C ≠ [] → PrefFree C →
    ∃ T : HTree, T.leaves = ((C.map Prod.fst : List ℕ) : Multiset ℕ) ∧
      T.cost ≤ wpl C := by
  induction N using Nat.strong_induction_on with
  | _ N ih =>
    intro C hlen hne hpf
    match C with
    | [] => exact absurd rfl hne
    | [c] =>
      refine ⟨HTree.leaf c.1, by simp [HTree.leaves], ?_⟩
      simp [HTree.cost]
    | e1 :: e2 :: C' =>
      have hlen2 : 2 ≤ (e1 :: e2 :: C').length := by simp
      have hcne := prefFree_ne_nil (e1 :: e2 :: C') hpf hlen2
      have hperm := tailsOf_perm (e1 :: e2 :: C') hcne
      have htot := tailsOf_totalLen (e1 :: e2 :: C') hcne
      have hwpl := tailsOf_wpl (e1 :: e2 :: C') hcne
      have hpf0 := tailsOf_prefFree false (e1 :: e2 :: C') hpf
      have hpf1 := tailsOf_prefFree true (e1 :: e2 :: C') hpf
      have hcount : (tailsOf false (e1 :: e2 :: C')).length
          + (tailsOf true (e1 :: e2 :: C')).length = (e1 :: e2 :: C').length := by
        have := hperm.length_eq
        simpa using this
      have hNpos : 2 ≤ N := by
        have : 2 ≤ ((e1 :: e2 :: C').map (fun c => c.2.length)).sum := by
          rw [htot]
          simp only [List.length_cons]
          omega
        omega
      by_cases h0 : tailsOf false (e1 :: e2 :: C') = []
      · -- every codeword starts with `true`; strip the shared bit
        have h1ne : tailsOf true (e1 :: e2 :: C') ≠ [] := by
          intro h1
          rw [h0, h1] at hcount
          simp at hcount
        have hlt : ((tailsOf true (e1 :: e2 :: C')).map
            (fun c => c.2.length)).sum < N := by
          rw [htot, h0] at hlen
          simp only [List.map_nil, List.sum_nil, List.length_cons] at hlen
          omega
        obtain ⟨T, hT, hTc⟩ := ih _ hlt (tailsOf true (e1 :: e2 :: C'))
          (le_refl _) h1ne hpf1
        refine ⟨T, ?_, ?_⟩
        · rw [hT]
          have : List.Perm ((tailsOf true (e1 :: e2 :: C')).map Prod.fst)
              ((e1 :: e2 :: C').map Prod.fst) := by
            have := hperm
            rw [h0] at this
            simpa using this
          exact Multiset.coe_eq_coe.mpr this
        · rw [hwpl, h0]
          have hz : wpl ([] : List (ℕ × List Bool)) = 0 := rfl
          rw [hz]
          omega
      · by_cases h1 : tailsOf true (e1 :: e2 :: C') = []
        · have hlt : ((tailsOf false (e1 :: e2 :: C')).map
              (fun c => c.2.length)).sum < N := by
            rw [htot, h1] at hlen
            simp only [List.map_nil, List.sum_nil, List.length_cons] at hlen
            omega
          obtain ⟨T, hT, hTc⟩ := ih _ hlt (tailsOf false (e1 :: e2 :: C'))
            (le_refl _) h0 hpf0
          refine ⟨T, ?_, ?_⟩
          · rw [hT]
            have : List.Perm ((tailsOf false (e1 :: e2 :: C')).map Prod.fst)
                ((e1 :: e2 :: C').map Prod.fst) := by
              have := hperm
              rw [h1] at this
              simpa using this
            exact Multiset.coe_eq_coe.mpr this
          · rw [hwpl, h1]
            have hz : wpl ([] : List (ℕ × List Bool)) = 0 := rfl
            rw [hz]
            omega
        · -- both subcodes inhabited: build an internal node
          have hlt0 : ((tailsOf false (e1 :: e2 :: C')).map
              (fun c => c.2.length)).sum < N := by
            rw [htot] at hlen
            simp only [List.length_cons] at hlen
            omega
          have hlt1 : ((tailsOf true (e1 :: e2 :: C')).map
              (fun c => c.2.length)).sum < N := by
            rw [htot] at hlen
            simp only [List.length_cons] at hlen
            omega
          obtain ⟨T0, hT0, hT0c⟩ := ih _ hlt0 (tailsOf false (e1 :: e2 :: C'))
            (le_refl _) h0 hpf0
          obtain ⟨T1, hT1, hT1c⟩ := ih _ hlt1 (tailsOf true (e1 :: e2 :: C'))
            (le_refl _) h1 hpf1
          refine ⟨HTree.node T0 T1, ?_, ?_⟩
          · show T0.leaves + T1.leaves = _
            rw [hT0, hT1, Multiset.coe_add]
            exact Multiset.coe_eq_coe.mpr hperm
          · show T0.cost + T1.cost + T0.weight + T1.weight ≤ _
            have hw0 : T0.weight
                = ((tailsOf false (e1 :: e2 :: C')).map Prod.fst).sum := by
              rw [HTree.weight_eq_leaves_sum, hT0, Multiset.sum_coe]
            have hw1 : T1.weight
                = ((tailsOf true (e1 :: e2 :: C')).map Prod.fst).sum := by
              rw [HTree.weight_eq_leaves_sum, hT1, Multiset.sum_coe]
            have hfst : ((tailsOf false (e1 :: e2 :: C')).map Prod.fst).sum
                + ((tailsOf true (e1 :: e2 :: C')).map Prod.fst).sum
                = ((e1 :: e2 :: C').map Prod.fst).sum := by
              have := hperm.sum_eq
              simpa using this
            rw [hwpl, hw0, hw1]
            omega

/-- The initial forest of leaves has zero total cost. -/
theorem map_leaf_cost_sum (ws : List ℕ) :
    ((ws.map HTree.leaf).map HTree.cost).sum = 0 := by
  induction ws with
  | nil => rfl
  | cons w ws ih => simpa [HTree.cost] using ih

/-- The weights of the initial forest of leaves are the input counts. -/
theorem map_leaf_weight (ws : List ℕ) :
    (ws.map HTree.leaf).map HTree.weight = ws := by
  induction ws with
  | nil => rfl
  | cons w ws ih => simp [HTree.weight, ih]

/-- The leaves of the initial forest are the input counts. -/
theorem map_leaf_leaves_sum (ws : List ℕ) :
    ((ws.map HTree.leaf).map HTree.leaves).sum = (ws : Multiset ℕ) := by
  induction ws with
  | nil => rfl
  | cons w ws ih =>
    simp only [List.map_cons, List.sum_cons, ih]
    rw [show (HTree.leaf w).leaves = {w} from rfl, Multiset.singleton_add,
      Multiset.cons_coe]

/-- **C1.** For every non-empty list of counts, the Huffman builder of
`_create_binary_tree` (lines 239-245, modelled by `huffmanTree`) returns a
tree whose traversal-assigned code (lines 249-261, `HTree.codes`) covers
exactly the given frequency multiset, is a binary prefix code, and
minimises the total weighted path length `Σ count_i · code_length_i`
among all binary prefix codes for that frequency multiset; in particular
for the counts {5, 9, 12, 13, 16, 45} the per-count code lengths are the
canonical textbook assignment 45↦1, 12↦3, 13↦3, 5↦4, 9↦4, 16↦3. -/
theorem huffman_code_lengths_optimal (ws : List ℕ) (hne : ws ≠ []) :
    ∃ T : HTree, huffmanTree ws = some T ∧
      (((T.codes []).map Prod.fst : List ℕ) : Multiset ℕ) = (ws : Multiset ℕ) ∧
      PrefFree (T.codes []) ∧
      (∀ C : List (ℕ × List Bool), PrefFree C →
        ((C.map Prod.fst : List ℕ) : Multiset ℕ) = (ws : Multiset ℕ) →
        wpl (T.codes []) ≤ wpl C) ∧
      Option.map (fun t => (HTree.codes t []).map (fun c => (c.1, c.2.length)))
          (huffmanTree [5, 9, 12, 13, 16, 45])
        = some [(45, 1), (12, 3), (13, 3), (5, 4), (9, 4), (16, 3)] := by
  have hlen : ws.length = (ws.length - 1) + 1 := by
    cases ws with
    | nil => exact absurd rfl hne
    | cons w ws' => simp
  have hmaplen : (ws.map HTree.leaf).length = (ws.length - 1) + 1 := by
    rw [List.length_map]
    exact hlen
  obtain ⟨T, hloop, hcost, hleaves⟩ :=
    huffmanLoop_sim (ws.length - 1) (ws.map HTree.leaf) hmaplen
  have hTree : huffmanTree ws = some T := by
    rw [huffmanTree, hloop]
    rfl
  have hcost' : T.cost = hCostFuel (ws.length - 1) ws := by
    rw [hcost, map_leaf_cost_sum, map_leaf_weight, Nat.zero_add]
  have hleaves' : T.leaves = (ws : Multiset ℕ) := by
    rw [hleaves, map_leaf_leaves_sum]
  refine ⟨T, hTree, ?_, HTree.codes_prefFree T [], ?_, by rfl⟩
  · rw [HTree.codes_fst, hleaves']
  · intro C hC hCfst
    have hCne : C ≠ [] := by
      intro h
      subst h
      apply hne
      have h0 : ((0 : Multiset ℕ)) = (ws : Multiset ℕ) := by simpa using hCfst
      exact (Multiset.coe_eq_zero ws).mp h0.symm
    obtain ⟨T', hT'l, hT'c⟩ := prefFree_to_tree ((C.map (fun c => c.2.length)).sum)
      C (le_refl _) hCne hC
    have h1 : wpl (T.codes []) = T.cost := by
      rw [HTree.wpl_codes]
      simp
    rw [h1, hcost']
    exact le_trans (hCostFuel_optimal (ws.length - 1) ws T' hlen
      (hT'l.trans hCfst)) hT'c

/-- Witness for C1 at the textbook counts {5, 9, 12, 13, 16, 45}. -/
theorem huffman_code_lengths_optimal_witness :
    ([5, 9, 12, 13, 16, 45] : List ℕ) ≠ [] ∧
    (∃ T : HTree, huffmanTree [5, 9, 12, 13, 16, 45] = some T ∧
      (((T.codes []).map Prod.fst : List ℕ) : Multiset ℕ)
        = (([5, 9, 12, 13, 16, 45] : List ℕ) : Multiset ℕ) ∧
      PrefFree (T.codes []) ∧
      (∀ C : List (ℕ × List Bool), PrefFree C →
        ((C.map Prod.fst : List ℕ) : Multiset ℕ)
          = (([5, 9, 12, 13, 16, 45] : List ℕ) : Multiset ℕ) →
        wpl (T.codes []) ≤ wpl C) ∧
      Option.map (fun t => (HTree.codes t []).map (fun c => (c.1, c.2.length)))
          (huffmanTree [5, 9, 12, 13, 16, 45])
        = some [(45, 1), (12, 3), (13, 3), (5, 4), (9, 4), (16, 3)]) :=
  ⟨by decide, huffman_code_lengths_optimal [5, 9, 12, 13, 16, 45] (by decide)⟩
